import Mathlib

/-
Verification of the spartan-waves broadcast server (Go) against its
natural-language specification.

The Go source `main.go` contains two concatenated program variants: an
ogg-only build (the Broadcaster with RWMutex-guarded header cache, the Ogg
page reader, the Vorbis header finder) and an mp3/ogg build (raw chunk
streaming).  Shared components (Broadcaster fan-out loop, throttle, the
directory walker, the protocol request handler) are structurally identical
between the two up to logging; each embedding below names the source lines
it was translated from.

Bytes are modelled as `Nat` (values < 256 where it matters are explicit in
the concrete inputs), byte slices and Go strings as `List Nat` / `List
Char`, Go maps and channel-buffer state as explicit functional state.
-/

namespace SpartanWaves

/-! ## Broadcaster (main.go lines 21-88 and 597-647) -/

/-- One frame of the broadcast stream: a byte slice (one Ogg page or raw chunk). -/
abbrev Frame := List Nat

/-- Subscriber identity.  In Go a subscriber is a channel value; channels are
distinguishable handles, modelled as naturals. -/
abbrev Sid := Nat

/-- State of the Broadcaster's serializing `Run` loop together with the
per-subscriber channel buffers: `registered` is the key set of the Go map
`b.subs`; `queue s` is the buffered-channel content of subscriber `s` (FIFO,
head = next to be received); `closed s` records whether `close(s)` has been
executed; `cap s` is the channel capacity the subscriber was created with
(512 resp. 256 in the two variants; kept general). -/
structure BState where
  registered : Finset Sid
  queue : Sid → List Frame
  closed : Sid → Bool
  cap : Sid → Nat

/-- The `case sub := <-b.addSub` arm of `Broadcaster.Run` (main.go lines
47-50 / 623-625): `b.subs[sub] = true`.  The new subscriber arrives with a
fresh empty open channel of capacity `c` (as created by `handleRadio`). -/
def addSub (s : Sid) (c : Nat) (st : BState) : BState :=
  { registered := insert s st.registered
    queue := fun t => if t = s then [] else st.queue t
    closed := fun t => if t = s then false else st.closed t
    cap := fun t => if t = s then c else st.cap t }

/-- The `case sub := <-b.removeSub` arm of `Broadcaster.Run` (main.go lines
52-58 / 627-632): `if _, ok := b.subs[sub]; ok { delete(b.subs, sub);
close(sub) }` — removal and close only when still registered, otherwise a
no-op. -/
def removeSub (s : Sid) (st : BState) : BState :=
  if s ∈ st.registered then
    { st with registered := st.registered.erase s
              closed := fun t => if t = s then true else st.closed t }
  else st

/-- The `case frame := <-b.broadcast` arm of `Broadcaster.Run` (main.go lines
60-68 / 634-644): for every registered subscriber a non-blocking send
`select { case sub <- frame: default: delete(b.subs, sub); close(sub) }`.
A non-blocking send on a buffered channel succeeds exactly when the buffer
is below capacity (a receiver can only be blocked on an empty buffer), so a
subscriber with `(queue s).length < cap s` gets `frame` appended and every
other registered subscriber is deleted and closed. -/
def publishFrame (f : Frame) (st : BState) : BState :=
  { registered := st.registered.filter (fun s => (st.queue s).length < st.cap s)
    queue := fun s =>
      if s ∈ st.registered ∧ (st.queue s).length < st.cap s then st.queue s ++ [f]
      else st.queue s
    closed := fun s =>
      if s ∈ st.registered ∧ st.cap s ≤ (st.queue s).length then true else st.closed s
    cap := st.cap }

/-- A subscriber's connection handler receiving one frame from its channel
(the `for page := range sub` loop in `handleRadio`, main.go lines 458-462 /
884-889): removes the queue head. -/
def recvFrame (s : Sid) (st : BState) : BState :=
  { st with queue := fun t => if t = s then (st.queue t).drop 1 else st.queue t }

/-- The four kinds of events the Broadcaster's `Run` loop and the subscriber
side can perform. -/
inductive BOp where
  | reg : Sid → Nat → BOp
  | unreg : Sid → BOp
  | pub : Frame → BOp
  | recv : Sid → BOp

/-- One step of the serialized Broadcaster event loop. -/
def stepB (st : BState) : BOp → BState
  | .reg s c => addSub s c st
  | .unreg s => removeSub s st
  | .pub f => publishFrame f st
  | .recv s => recvFrame s st

/-- Running a whole event trace through the serialized loop. -/
def runB (st : BState) : List BOp → BState
  | [] => st
  | op :: ops => runB (stepB st op) ops

/-- A trace is safe for subscriber `s` when `s` is never explicitly
unregistered and `s`'s queue is strictly below capacity at the moment of
every publish in the trace. -/
def SafeTrace (s : Sid) : BState → List BOp → Prop
  | _, [] => True
  | st, op :: ops =>
      (match op with
       | .pub _ => (st.queue s).length < st.cap s
       | .unreg t => t ≠ s
       | _ => True) ∧ SafeTrace s (stepB st op) ops

/-- Go's `copy(dst, src)`: copies `min |dst| |src|` elements of `src` over
the prefix of `dst` and keeps the rest of `dst`. -/
def goCopy (dst src : List Nat) : List Nat :=
  src.take dst.length ++ dst.drop src.length

/-- `Broadcaster.GetHeaderCopy` (main.go lines 79-88): under the read lock,
returns nil when the cached header is empty and otherwise a fresh buffer
(`make` + `copy`) holding the same bytes.  The returned `some` value is
built from a newly allocated zero buffer, never the internal slice. -/
def GetHeaderCopy (header : List Nat) : Option (List Nat) :=
  if header.length = 0 then none
  else some (goCopy (List.replicate header.length 0) header)

/-! ## Throttle (main.go lines 90-118 and 649-675) -/

/-- The throttle state: target rate in bytes per second and cumulative bytes
written since start (`time.Time` start is represented by passing the elapsed
time to `Pace` directly). -/
structure GoThrottle where
  targetBps : Int
  written : Int

/-- `newThrottle` (main.go lines 96-106): `kbps <= 0` falls back to 192, and
`targetBps = int64(kbps) * 1000 / 8` with Go integer division (truncation
toward zero, matching `Int` division here). -/
def newThrottle (kbps : Int) : GoThrottle :=
  { targetBps := (if kbps ≤ 0 then 192 else kbps) * 1000 / 8, written := 0 }

/-- `throttle.Pace` (main.go lines 108-118): adds `n` to `written`; if
elapsed time is nonpositive returns immediately; otherwise computes
`should := time.Duration(float64(written)/float64(targetBps)) * time.Second`
— the float64 quotient truncated to an integral number of *seconds*, then
scaled to nanoseconds — and sleeps `should - elapsed` when `should >
elapsed`.  The float64 division followed by truncation is modelled as exact
integer division (they agree whenever the float64 quotient is exactly
representable, as in every concrete input used below).  The result is the
updated state and the sleep duration in nanoseconds; `Pace` receives only
the byte count `n`, never the data, so it cannot drop or alter frames. -/
def Pace (t : GoThrottle) (n : Nat) (elapsedNs : Int) : GoThrottle × Int :=
  let w := t.written + n
  let t' : GoThrottle := { t with written := w }
  if elapsedNs ≤ 0 then (t', 0)
  else
    let shouldNs := (w / t.targetBps) * 1000000000
    if shouldNs > elapsedNs then (t', shouldNs - elapsedNs) else (t', 0)

/-! ## Ogg page reader (main.go lines 255-300) -/

/-- The 4-byte Ogg capture pattern "OggS". -/
def oggS : List Nat := [79, 103, 103, 83]

/-- The body of `readNextOggPage` after the capture-pattern scan has
succeeded (main.go lines 271-299): read the fixed 27-byte header (`ReadFull`
fails, i.e. `none`, when fewer bytes remain), re-check `hdr[:4] == "OggS"`,
read the `hdr[26]`-sized segment table, sum it for the body length, read the
body, and return the page `hdr ++ segTable ++ body` together with the
remaining stream. -/
def readOggAfterSync (s : List Nat) : Option (List Nat × List Nat) :=
  if s.length < 27 then none
  else
    let hdr := s.take 27
    if hdr.take 4 ≠ oggS then none
    else
      let segCount := hdr.getD 26 0
      if s.length < 27 + segCount then none
      else
        let segTable := (s.drop 27).take segCount
        let bodyLen := segTable.sum
        if s.length < 27 + segCount + bodyLen then none
        else
          let body := (s.drop (27 + segCount)).take bodyLen
          some (hdr ++ segTable ++ body, s.drop (27 + segCount + bodyLen))

/-- `readNextOggPage` (main.go lines 258-300) over a finite remaining byte
stream: scan byte by byte for the capture pattern (a `Peek(4)` with fewer
than 4 bytes remaining fails, i.e. `none`), then read one page. -/
def readNextOggPage : List Nat → Option (List Nat × List Nat)
  | [] => none
  | b :: t =>
    if (b :: t).length < 4 then none
    else if (b :: t).take 4 = oggS then readOggAfterSync (b :: t)
    else readNextOggPage t

/-- Fuel-bounded iteration of `readNextOggPage`, as performed by the page
loops of `streamOgg` (main.go lines 401-414 and 422-432): keep reading pages
until the reader fails.  Every successful read consumes at least one byte,
so `length + 1` fuel (see `readPages`) always suffices. -/
def readPagesAux : Nat → List Nat → List (List Nat)
  | 0, _ => []
  | Nat.succ fuel, s =>
    match readNextOggPage s with
    | none => []
    | some pr => pr.1 :: readPagesAux fuel pr.2

/-- All pages obtainable from a byte stream by repeated `readNextOggPage`
calls, in order. -/
def readPages (s : List Nat) : List (List Nat) := readPagesAux (s.length + 1) s

/-- The declared segment count of a page: byte 26 of its header. -/
def pageSegCount (p : List Nat) : Nat := p.getD 26 0

/-- The body length a page's segment (lacing) table declares: the sum of the
`pageSegCount` lacing bytes following the 27-byte header. -/
def pageBodyLen (p : List Nat) : Nat := ((p.drop 27).take (pageSegCount p)).sum

/-- A structurally valid Ogg page: starts with the capture pattern, and its
total length is exactly 27 header bytes plus the segment table plus the body
the table's sum declares. -/
def IsValidPage (p : List Nat) : Prop :=
  p.take 4 = oggS ∧ p.length = 27 + pageSegCount p + pageBodyLen p

/-- A garbage byte string no window of which spells the capture pattern. -/
def NoCapture (g : List Nat) : Prop :=
  ∀ i < g.length, (g.drop i).take 4 ≠ oggS

instance (p : List Nat) : Decidable (IsValidPage p) :=
  inferInstanceAs (Decidable (p.take 4 = oggS ∧ p.length = 27 + pageSegCount p + pageBodyLen p))

instance (g : List Nat) : Decidable (NoCapture g) :=
  inferInstanceAs (Decidable (∀ i < g.length, (g.drop i).take 4 ≠ oggS))

/-! ## Vorbis header finder (main.go lines 302-355) -/

/-- The 6-byte tag "vorbis". -/
def vorbisTag : List Nat := [118, 111, 114, 98, 105, 115]

/-- State of the Vorbis header-packet detector: number of header packets
recognised so far and the packet-reassembly buffer. -/
structure vorbisHeaderFinder where
  gotPackets : Nat
  packetBuf : List Nat
deriving DecidableEq

/-- The test of `checkPacket` (main.go lines 348-350): at least 7 bytes, a
leading type byte 1, 3 or 5, and bytes 1..6 spelling "vorbis". -/
def isVorbisHeaderPkt (pkt : List Nat) : Prop :=
  7 ≤ pkt.length ∧ (pkt.getD 0 0 = 1 ∨ pkt.getD 0 0 = 3 ∨ pkt.getD 0 0 = 5) ∧
    (pkt.drop 1).take 6 = vorbisTag

instance (pkt : List Nat) : Decidable (isVorbisHeaderPkt pkt) :=
  inferInstanceAs (Decidable (_ ∧ _))

/-- `vorbisHeaderFinder.checkPacket` (main.go lines 342-353): returns
immediately once 3 packets were counted, otherwise counts the packet when it
matches the Vorbis header-packet shape. -/
def checkPacket (vh : vorbisHeaderFinder) (pkt : List Nat) : vorbisHeaderFinder :=
  if 3 ≤ vh.gotPackets then vh
  else if isVorbisHeaderPkt pkt then { vh with gotPackets := vh.gotPackets + 1 }
  else vh

/-- The lacing-table loop of `feedPage` (main.go lines 325-339): for each
lacing value, an out-of-bounds slice makes the whole call return (keeping
the state mutated so far); otherwise the slice is appended to the packet
buffer, and a lacing value below 255 completes the packet: it is checked and
the buffer reset. -/
def feedSegs (body : List Nat) : vorbisHeaderFinder → Nat → List Nat → vorbisHeaderFinder
  | vh, _, [] => vh
  | vh, offset, lace :: rest =>
    if body.length < offset + lace then vh
    else if lace < 255 then
      feedSegs body
        { checkPacket { vh with packetBuf := vh.packetBuf ++ (body.drop offset).take lace }
            (vh.packetBuf ++ (body.drop offset).take lace) with packetBuf := [] }
        (offset + lace) rest
    else
      feedSegs body { vh with packetBuf := vh.packetBuf ++ (body.drop offset).take lace }
        (offset + lace) rest

/-- `vorbisHeaderFinder.feedPage` (main.go lines 308-340): pages shorter than
27 bytes or shorter than the declared `27 + segCount` are ignored; the
page-start packet buffer is reset unless header-type bit 0 (continuation) is
set; then the lacing loop runs over the segment table and the body. -/
def feedPage (vh : vorbisHeaderFinder) (page : List Nat) : vorbisHeaderFinder :=
  if page.length < 27 then vh
  else if page.length < 27 + page.getD 26 0 then vh
  else
    feedSegs (page.drop (27 + page.getD 26 0))
      (if Nat.land (page.getD 5 0) 1 = 0 then { vh with packetBuf := ([] : List Nat) } else vh)
      0 ((page.drop 27).take (page.getD 26 0))

/-- `vorbisHeaderFinder.done` (main.go line 355). -/
def vhDone (vh : vorbisHeaderFinder) : Bool := 3 ≤ vh.gotPackets

/-- Reference machine: the detector without the 3-packet cap, used to state
how many Vorbis header packets a page stream contains.  Same packet
reassembly as `feedSegs`/`feedPage`, but the counter is never capped. -/
structure uncappedFinder where
  count : Nat
  packetBuf : List Nat
deriving DecidableEq

/-- Uncapped counterpart of `checkPacket`. -/
def ucheckPacket (u : uncappedFinder) (pkt : List Nat) : uncappedFinder :=
  if isVorbisHeaderPkt pkt then { u with count := u.count + 1 } else u

/-- Uncapped counterpart of `feedSegs`. -/
def ufeedSegs (body : List Nat) : uncappedFinder → Nat → List Nat → uncappedFinder
  | u, _, [] => u
  | u, offset, lace :: rest =>
    if body.length < offset + lace then u
    else if lace < 255 then
      ufeedSegs body
        { ucheckPacket { u with packetBuf := u.packetBuf ++ (body.drop offset).take lace }
            (u.packetBuf ++ (body.drop offset).take lace) with packetBuf := [] }
        (offset + lace) rest
    else
      ufeedSegs body { u with packetBuf := u.packetBuf ++ (body.drop offset).take lace }
        (offset + lace) rest

/-- Uncapped counterpart of `feedPage`. -/
def ufeedPage (u : uncappedFinder) (page : List Nat) : uncappedFinder :=
  if page.length < 27 then u
  else if page.length < 27 + page.getD 26 0 then u
  else
    ufeedSegs (page.drop (27 + page.getD 26 0))
      (if Nat.land (page.getD 5 0) 1 = 0 then { u with packetBuf := ([] : List Nat) } else u)
      0 ((page.drop 27).take (page.getD 26 0))

/-- How many completed Vorbis header packets a page stream contains (the
lacing-reassembly semantics of the code, counter uncapped). -/
def countVorbisPackets (pages : List (List Nat)) : Nat :=
  (pages.foldl ufeedPage ⟨0, []⟩).count

/-- The header-collection loop of `streamOgg` (main.go lines 398-414):
while the detector is not done, read the next page, feed it to the detector
and append it to `headerBuf`; stops at end of pages (read error / EOF).
Returns the final detector state and the collected header bytes. -/
def headerLoop : vorbisHeaderFinder → List Nat → List (List Nat) →
    vorbisHeaderFinder × List Nat
  | vh, acc, [] => (vh, acc)
  | vh, acc, p :: ps =>
    if vhDone vh then (vh, acc)
    else headerLoop (feedPage vh p) (acc ++ p) ps

/-! ## Directory walk (main.go lines 188-253, `buildOggListFromDir`, and the
structurally identical lines 698-767, `buildPlaylistRecursive`)

The filesystem is abstracted as follows: a `Canon` is the canonical
(symlink-resolved, absolute) path of a directory, which is what
`filepath.EvalSymlinks` + `filepath.Abs` compute and what the `seenDirs`
cycle guard stores.  A directory listing (`os.ReadDir`) yields entries that
the code classifies, after `os.Stat`-ing symlinks, into files (regular files
and file symlinks, collected by extension) and directories (regular
subdirectories and directory symlinks, walked recursively); `dirE n t`
records the entry name together with the canonical directory `t` the entry
resolves to.  Names and paths are byte strings (`List Char`);
`filepath.Join dir name` is modelled as `dir ++ '/' :: name`.  The model
assumes canonicalization succeeds (the `err == nil` path of
`filepath.EvalSymlinks`), as in every scenario of the claim. -/

/-- Canonical identity of a directory. -/
abbrev Canon := Nat

/-- One directory entry as the walk classifies it. -/
inductive DirEntry where
  | fileE : List Char → DirEntry
  | dirE : List Char → Canon → DirEntry
deriving DecidableEq

/-- An abstract filesystem: the finite list of canonical directories and
each directory's listing (in `os.ReadDir` order). -/
structure GoFS where
  univ : List Canon
  entries : Canon → List DirEntry

/-- `filepath.Ext`: the suffix starting at the final dot of the name, empty
if the name contains no dot. -/
def goExt (s : List Char) : List Char :=
  if '.' ∈ s then '.' :: (s.reverse.takeWhile (· ≠ '.')).reverse else []

/-- The walk's extension filter (main.go lines 230-231 / 242-243):
`strings.ToLower(filepath.Ext(name))` must be ".ogg" or ".oga". -/
def extAllowedOgg (n : List Char) : Bool :=
  ((goExt n).map Char.toLower == ['.', 'o', 'g', 'g']) ||
    ((goExt n).map Char.toLower == ['.', 'o', 'g', 'a'])

/-- One collected file: the canonical directory it was listed in and its
entry name (the identity of the real file) together with the path string the
walk appends to `out`. -/
structure FileHit where
  dir : Canon
  name : List Char
  path : List Char
deriving DecidableEq

/-- The walk's state: `seen` is the `seenDirs` map's key set; `entered` is
the ghost trace of canonical directories whose listings were read, in
order; `hits` is `out`; `fuelOut` records whether the canonical-directory
recursion budget was ever exhausted (it never is, see the C5 theorem). -/
structure WalkSt where
  seen : List Canon
  entered : List Canon
  hits : List FileHit
  fuelOut : Bool
deriving DecidableEq

/-- The recursive closure `walk` of `buildOggListFromDir` (main.go lines
197-248): resolve the directory to its canonical form, return if already
visited, otherwise record it and run the entry loop (main.go lines 214-246):
directory entries (after symlink resolution) are walked recursively under
`filepath.Join(dir, name)`; file entries with an allowed extension are
appended to `out`.  The fuel only bounds the nesting of directory visits;
the `seenDirs` cycle guard keeps it from ever running out (see the C5
theorem). -/
def walkDir (fs : GoFS) : Nat → WalkSt → List Char → Canon → WalkSt
  | 0, st, _, _ => { st with fuelOut := true }
  | Nat.succ fuel, st, path, c =>
    if c ∈ st.seen then st
    else
      (fs.entries c).foldl
        (fun s e =>
          match e with
          | DirEntry.fileE n =>
            if extAllowedOgg n then
              { s with hits := s.hits ++ [⟨c, n, path ++ '/' :: n⟩] }
            else s
          | DirEntry.dirE n t => walkDir fs fuel s (path ++ '/' :: n) t)
        { st with seen := c :: st.seen, entered := st.entered ++ [c] }

/-- The body of the entry loop of `walk`, named for the proofs: identical to
the anonymous step function inside `walkDir`. -/
def walkStep (fs : GoFS) (fuel : Nat) (path : List Char) (c : Canon) (s : WalkSt) :
    DirEntry → WalkSt
  | DirEntry.fileE n =>
    if extAllowedOgg n then { s with hits := s.hits ++ [⟨c, n, path ++ '/' :: n⟩] }
    else s
  | DirEntry.dirE n t => walkDir fs fuel s (path ++ '/' :: n) t

/-- The whole walk from an empty state, with fuel one more than the number
of canonical directories. -/
def runWalk (fs : GoFS) (rootPath : List Char) (root : Canon) : WalkSt :=
  walkDir fs (fs.univ.length + 1) ⟨[], [], [], false⟩ rootPath root

/-- `buildOggListFromDir` (main.go lines 190-253): walk from the root, then
`sort.Strings(out)` — modelled by insertion sort under the lexicographic
byte order. -/
def buildOggListFromDir (fs : GoFS) (rootPath : List Char) (root : Canon) :
    List (List Char) :=
  List.insertionSort (· ≤ ·) ((runWalk fs rootPath root).hits.map FileHit.path)

/-- The file names among a listing. -/
def fileNames (es : List DirEntry) : List (List Char) :=
  es.filterMap fun e => match e with
    | DirEntry.fileE n => some n
    | DirEntry.dirE _ _ => none

/-- The directory targets among a listing. -/
def dirTargets (es : List DirEntry) : List Canon :=
  es.filterMap fun e => match e with
    | DirEntry.fileE _ => none
    | DirEntry.dirE _ t => some t

/-- Well-formedness: every directory entry of a known directory resolves to
a known canonical directory (real filesystems are closed in this sense). -/
def ClosedFS (fs : GoFS) : Prop :=
  ∀ c ∈ fs.univ, ∀ t ∈ dirTargets (fs.entries c), t ∈ fs.univ

/-- Well-formedness: a directory listing never repeats a file name
(`os.ReadDir` cannot). -/
def NamesOk (fs : GoFS) : Prop :=
  ∀ c : Canon, (fileNames (fs.entries c)).Nodup

/-- The number of yet-unvisited canonical directories: the walk's
termination measure. -/
def unseenCount (fs : GoFS) (st : WalkSt) : Nat :=
  fs.univ.countP fun c => decide (c ∉ st.seen)

/-- How many hits tagged with directory `d` and name `n` were collected. -/
def hitCount (hits : List FileHit) (d : Canon) (n : List Char) : Nat :=
  hits.countP fun h => h.dir == d && h.name == n

/-- The two-symlinks scenario of the claim: a root directory (canon 0) with
two entries `l1` and `l2` resolving to canonical directories `c1` and `c2`,
each of which lists one file `x.ogg`.  When `c1 = c2` the two entries are
two symlinks to the same real subtree; otherwise they are distinct
directories with identical contents. -/
def pairFS (c1 c2 : Canon) : GoFS :=
  { univ := [0, c1, c2]
    entries := fun c =>
      if c = 0 then [DirEntry.dirE ['l', '1'] c1, DirEntry.dirE ['l', '2'] c2]
      else if c = c1 ∨ c = c2 then [DirEntry.fileE ['x', '.', 'o', 'g', 'g']]
      else [] }

/-- The self-referential-symlink scenario of the claim: one real directory
(canon 0) containing a symlink `loop` that resolves back to itself and one
file `a.ogg`. -/
def loopFS : GoFS :=
  { univ := [0]
    entries := fun c =>
      if c = 0 then
        [DirEntry.dirE ['l', 'o', 'o', 'p'] 0, DirEntry.fileE ['a', '.', 'o', 'g', 'g']]
      else [] }

/-- Invariant of one `walkDir` call, used by the C5 proof: the call extends
`entered`, `seen` and `hits` by deltas `Δe`, `Δh` such that the newly
entered canonical directories are distinct, were unvisited, and stay inside
the filesystem; every collected hit belongs to a newly entered directory,
names an actual file entry of it and passes the extension filter; each
(directory, name) pair of an entered directory is collected exactly once;
and the fuel is never exhausted while more fuel than unvisited directories
remains. -/
def DirInv (fs : GoFS) (fuel : Nat) (st : WalkSt) (path : List Char) (c : Canon) :
    Prop :=
  ∃ de dh,
    (walkDir fs fuel st path c).entered = st.entered ++ de ∧
    (walkDir fs fuel st path c).seen = de.reverse ++ st.seen ∧
    (walkDir fs fuel st path c).hits = st.hits ++ dh ∧
    de.Nodup ∧
    (∀ d ∈ de, d ∉ st.seen) ∧
    (c ∈ fs.univ → ∀ d ∈ de, d ∈ fs.univ) ∧
    (∀ h ∈ dh, h.dir ∈ de ∧ DirEntry.fileE h.name ∈ fs.entries h.dir ∧
      extAllowedOgg h.name = true) ∧
    (∀ (d : Canon) (n : List Char),
      hitCount dh d n =
        if d ∈ de ∧ DirEntry.fileE n ∈ fs.entries d ∧ extAllowedOgg n = true
        then 1 else 0) ∧
    (c ∈ fs.univ → unseenCount fs st < fuel →
      (walkDir fs fuel st path c).fuelOut = st.fuelOut)

/-- Invariant of the entry loop (`foldl` over `walkStep`), used by the C5
proof; like `DirInv`, with additional hits for the current directory's own
file entries. -/
def EntInv (fs : GoFS) (fuel : Nat) (st : WalkSt) (path : List Char) (c : Canon)
    (es : List DirEntry) : Prop :=
  ∃ de dh,
    (es.foldl (walkStep fs fuel path c) st).entered = st.entered ++ de ∧
    (es.foldl (walkStep fs fuel path c) st).seen = de.reverse ++ st.seen ∧
    (es.foldl (walkStep fs fuel path c) st).hits = st.hits ++ dh ∧
    de.Nodup ∧
    (∀ d ∈ de, d ∉ st.seen) ∧
    ((∀ t ∈ dirTargets es, t ∈ fs.univ) → ∀ d ∈ de, d ∈ fs.univ) ∧
    (∀ h ∈ dh,
      (h.dir ∈ de ∧ DirEntry.fileE h.name ∈ fs.entries h.dir ∧
        extAllowedOgg h.name = true) ∨
      (h.dir = c ∧ DirEntry.fileE h.name ∈ es ∧ extAllowedOgg h.name = true ∧
        h.path = path ++ '/' :: h.name)) ∧
    ((fileNames es).Nodup →
      ∀ (d : Canon) (n : List Char),
      hitCount dh d n =
        (if d ∈ de ∧ DirEntry.fileE n ∈ fs.entries d ∧ extAllowedOgg n = true
          then 1 else 0) +
        (if d = c ∧ DirEntry.fileE n ∈ es ∧ extAllowedOgg n = true then 1 else 0)) ∧
    ((∀ t ∈ dirTargets es, t ∈ fs.univ) → unseenCount fs st < fuel →
      (es.foldl (walkStep fs fuel path c) st).fuelOut = st.fuelOut)

/-- Bounds-checked Go slice `l[i : i+n]`: defined only when the slice is in
bounds, as in Go (out-of-bounds slicing panics). -/
def sliceChecked (l : List Nat) (i n : Nat) : Option (List Nat) :=
  if i + n ≤ l.length then some ((l.drop i).take n) else none

/-- `feedSegs` with every slice bounds-checked: `none` would signal an
out-of-bounds access. -/
def feedSegsChecked (body : List Nat) : vorbisHeaderFinder → Nat → List Nat →
    Option vorbisHeaderFinder
  | vh, _, [] => some vh
  | vh, offset, lace :: rest =>
    if body.length < offset + lace then some vh
    else
      match sliceChecked body offset lace with
      | none => none
      | some sl =>
        if lace < 255 then
          feedSegsChecked body
            { checkPacket { vh with packetBuf := vh.packetBuf ++ sl }
                (vh.packetBuf ++ sl) with packetBuf := [] }
            (offset + lace) rest
        else
          feedSegsChecked body { vh with packetBuf := vh.packetBuf ++ sl }
            (offset + lace) rest

/-- `feedPage` with every index and slice bounds-checked: `none` would
signal an out-of-bounds access. -/
def feedPageChecked (vh : vorbisHeaderFinder) (page : List Nat) :
    Option vorbisHeaderFinder :=
  if page.length < 27 then some vh
  else
    match page[26]? with
    | none => none
    | some segCount =>
      if page.length < 27 + segCount then some vh
      else
        match page[5]?, sliceChecked page 27 segCount with
        | none, _ => none
        | _, none => none
        | some hdrType, some segTable =>
          feedSegsChecked (page.drop (27 + segCount))
            (if Nat.land hdrType 1 = 0 then { vh with packetBuf := ([] : List Nat) } else vh)
            0 segTable

/-! ## Protocol request handling (main.go lines 465-512; lines 892-944 are
identical up to the index body text and explicit closes) -/

/-- `strings.TrimRight(line, "\r\n")`: removes every trailing character
belonging to the cutset. -/
def goTrimRightCRLF (s : List Char) : List Char :=
  (s.reverse.dropWhile fun ch => ch == '\r' || ch == '\n').reverse

/-- `strings.Split(line, " ")`: split on every single space, keeping empty
fields; the empty string yields one empty field. -/
def goSplitSpace : List Char → List (List Char)
  | [] => [[]]
  | ch :: rest =>
    match goSplitSpace rest with
    | [] => [[ch]]
    | g :: gs => if ch = ' ' then [] :: g :: gs else (ch :: g) :: gs

/-- Decimal digit value of a character, if any. -/
def digitVal (ch : Char) : Option Nat :=
  if '0' ≤ ch ∧ ch ≤ '9' then some (ch.toNat - '0'.toNat) else none

/-- All-digits parse of a nonempty string (no sign). -/
def parseDigits (s : List Char) : Option Nat :=
  if s = [] then none
  else
    s.foldl
      (fun acc ch =>
        match acc, digitVal ch with
        | some n, some d => some (n * 10 + d)
        | _, _ => none)
      (some 0)

/-- `strconv.Atoi` on a 64-bit platform: an optional sign, at least one
digit, all digits, value within the signed 64-bit range — anything else
(including range overflow, which Go reports as `ErrRange`) is an error. -/
def goAtoi (s : List Char) : Option Int :=
  let signed : Int × List Char :=
    match s with
    | '+' :: rest => (1, rest)
    | '-' :: rest => (-1, rest)
    | _ => (1, s)
  match parseDigits signed.2 with
  | none => none
  | some n =>
    let v : Int := signed.1 * n
    if v < -(2 ^ 63) ∨ 2 ^ 63 - 1 < v then none else some v

/-- The base URL `spartan://host:port` built by `handleRequest`. -/
def spartanBase (host : List Char) (port : Nat) : List Char :=
  "spartan://".toList ++ host ++ ':' :: Nat.toDigits 10 port

/-- The Gemtext link line fragment `=> spartan://host:port/radio`. -/
def radioLink (host : List Char) (port : Nat) : List Char :=
  "=> ".toList ++ spartanBase host port ++ "/radio".toList

/-- The index page body (main.go lines 501-503):
`"Spartan Radio (Ogg Vorbis)\n\n" + "=> " + base + "/radio Tune in\n"`,
written here with the link fragment factored out (list append is
associative, so this is the same byte string). -/
def indexBody (host : List Char) (port : Nat) : List Char :=
  "Spartan Radio (Ogg Vorbis)\n\n".toList ++ radioLink host port ++ " Tune in\n".toList

/-- The response a connection receives: exactly one of these is produced
per connection (and `/radio` then streams frames after its status line). -/
inductive SpartanResp where
  | malformed
  | invalidLen
  | bodyErr
  | indexPage : List Char → SpartanResp
  | radio
  | notFound
deriving DecidableEq

/-- The response line (and, for the index, body) each case writes, exactly
as in the `fmt.Fprintf` calls of `handleRequest`/`handleRadio`. -/
def renderResp : SpartanResp → List Char
  | SpartanResp.malformed => "4 malformed request line\r\n".toList
  | SpartanResp.invalidLen => "4 invalid content-length\r\n".toList
  | SpartanResp.bodyErr => "5 error reading request body\r\n".toList
  | SpartanResp.indexPage body => "2 text/gemini; charset=utf-8\r\n".toList ++ body
  | SpartanResp.radio => "2 audio/ogg\r\n".toList
  | SpartanResp.notFound => "4 not found\r\n".toList

/-- `handleRequest` (main.go lines 465-512) on one connection whose first
newline-terminated line is `line` and whose remaining readable body bytes
number `bodyAvail`: trim trailing CR/LF, split on single spaces, demand
exactly 3 fields, parse the content length with `strconv.Atoi` rejecting
errors and negatives, discard the body (`io.CopyN` fails when fewer than
`contentLen` bytes arrive), then dispatch on the path. -/
def handleRequest (line : List Char) (bodyAvail : Nat) (host : List Char)
    (port : Nat) : SpartanResp :=
  if (goSplitSpace (goTrimRightCRLF line)).length ≠ 3 then SpartanResp.malformed
  else
    match goAtoi ((goSplitSpace (goTrimRightCRLF line)).getD 2 []) with
    | none => SpartanResp.invalidLen
    | some contentLen =>
      if contentLen < 0 then SpartanResp.invalidLen
      else if bodyAvail < contentLen.toNat then SpartanResp.bodyErr
      else if (goSplitSpace (goTrimRightCRLF line)).getD 1 [] = ['/'] ∨
          (goSplitSpace (goTrimRightCRLF line)).getD 1 [] = "/index.gmi".toList ∨
          (goSplitSpace (goTrimRightCRLF line)).getD 1 [] = "/index.txt".toList then
        SpartanResp.indexPage (indexBody host port)
      else if (goSplitSpace (goTrimRightCRLF line)).getD 1 [] = "/radio".toList then
        SpartanResp.radio
      else SpartanResp.notFound

/-! ## Playlist file parsing (ffmpeg-backed variant) -/

/-- `strings.TrimSpace` restricted to ASCII whitespace. -/
def trimSpaces (s : List Char) : List Char :=
  ((s.dropWhile fun ch => ch == ' ' || ch == '\t' || ch == '\r' ||
    ch == '\n').reverse.dropWhile fun ch => ch == ' ' || ch == '\t' ||
    ch == '\r' || ch == '\n').reverse

/-- Un-escape `\'` to `'` inside an encoder-concat quoted path. -/
def unescapeQuotes : List Char → List Char
  | [] => []
  | '\\' :: '\'' :: rest => '\'' :: unescapeQuotes rest
  | ch :: rest => ch :: unescapeQuotes rest

/-- Recognise an encoder-concat `file '<path>'` line: strip the quotes and
un-escape escaped single quotes; `none` if the line is not of that shape. -/
def unquoteFileLine (s : List Char) : Option (List Char) :=
  if s.take 6 = "file '".toList ∧ s.getLast? = some '\'' ∧ 7 ≤ s.length then
    some (unescapeQuotes (s.drop 6).dropLast)
  else none

/-- Modelled from the spec: the playlist parser of the ffmpeg-backed variant
(`spartan-waves -source wav|ogg`, described in the readme and fed `file
'<path>'` lines by `build_playlist.sh`'s wav mode) is not under `src/` —
the two parsers that are (main.go lines 146-186 and 771-797) lack the
encoder-concat syntax and any non-ogg extension set.  Spec section 4.3,
`buildFromPlaylistFile`: blank lines and lines beginning with `#` or `;`
are skipped, a byte-order-mark prefix is stripped, a line is either a bare
path or an encoder-concat `file '<path>'` line (quotes stripped, escaped
single quotes un-escaped), relative paths are resolved against the playlist
file's directory, and entries are dropped — not fatal — unless the
resolved path exists as a regular file (`fileExists`, the abstract
filesystem) with an allowed extension (`allowedExt`).  Returns the
surviving path, or `none` for a dropped line. -/
def parsePlaylistLine (baseDir : List Char) (fileExists : List Char → Bool)
    (allowedExt : List Char → Bool) (raw : List Char) : Option (List Char) :=
  let line := trimSpaces raw
  if line = [] then none
  else if line.headD ' ' = '#' ∨ line.headD ' ' = ';' then none
  else
    let line := if line.headD ' ' = Char.ofNat 65279 then line.drop 1 else line
    let bare := match unquoteFileLine line with
      | some inner => inner
      | none => line
    let p := if bare.headD ' ' = '/' then bare else baseDir ++ '/' :: bare
    if fileExists p ∧ allowedExt p then some p else none

/-- Modelled from the spec: the whole playlist file, line by line, order
preserved exactly as written (no sort). -/
def readPlaylistFileSpec (lines : List (List Char)) (baseDir : List Char)
    (fileExists : List Char → Bool) (allowedExt : List Char → Bool) :
    List (List Char) :=
  lines.filterMap (parsePlaylistLine baseDir fileExists allowedExt)

end SpartanWaves

namespace SpartanWaves

/-! ## Theorems -/

/-- C1: for every publish, every currently registered subscriber whose queue
is below capacity stays registered and receives the frame at the tail of its
queue; every registered subscriber whose queue is full is removed from the
registered set and its queue is closed (the publish never blocks — it is a
total function of the state); consequently, along any event trace in which a
subscriber's queue is below capacity at each publish and which never
explicitly unregisters it, the subscriber is never evicted. -/
theorem broadcaster_publish_delivery_and_eviction :
    (∀ (st : BState) (f : Frame) (s : Sid), s ∈ st.registered →
        (st.queue s).length < st.cap s →
        s ∈ (publishFrame f st).registered ∧
        (publishFrame f st).queue s = st.queue s ++ [f]) ∧
    (∀ (st : BState) (f : Frame) (s : Sid), s ∈ st.registered →
        st.cap s ≤ (st.queue s).length →
        s ∉ (publishFrame f st).registered ∧ (publishFrame f st).closed s = true) ∧
    (∀ (ops : List BOp) (st : BState) (s : Sid), s ∈ st.registered →
        SafeTrace s st ops → s ∈ (runB st ops).registered) := by
  refine ⟨?_, ?_, ?_⟩
  · intro st f s hs hlt
    constructor
    · simp [publishFrame, Finset.mem_filter, hs, hlt]
    · simp [publishFrame, hs, hlt]
  · intro st f s hs hge
    constructor
    · simp [publishFrame, Finset.mem_filter, hs]
      omega
    · simp [publishFrame, hs, hge]
  · intro ops
    induction ops with
    | nil => intro st s hs _; simpa [runB] using hs
    | cons op rest ih =>
      intro st s hs hsafe
      obtain ⟨hop, hrest⟩ := hsafe
      refine ih (stepB st op) s ?_ hrest
      cases op with
      | reg t c => simp [stepB, addSub, Finset.mem_insert, hs]
      | unreg t =>
        simp only [stepB, removeSub]
        by_cases ht : t ∈ st.registered
        · simp only [ht, if_true]
          exact Finset.mem_erase.2 ⟨fun h => hop (h.symm ▸ rfl), hs⟩
        · simpa [ht] using hs
      | pub f => exact Finset.mem_filter.2 ⟨hs, hop⟩
      | recv t => simpa [stepB, recvFrame] using hs

/-- Witness for C1 at a concrete state: subscribers 0 (capacity 3, empty
queue) and 1 (capacity 2, full queue); publishing `[9]` delivers to 0 and
evicts-and-closes 1, and the one-publish trace keeps 0 registered. -/
theorem broadcaster_publish_delivery_and_eviction_witness :
    (0 ∈ (publishFrame [9] ⟨{0, 1},
        (fun t => if t = 1 then [[1], [2]] else []), (fun _ => false),
        (fun t => if t = 1 then 2 else 3)⟩).registered ∧
      (publishFrame [9] ⟨{0, 1},
        (fun t => if t = 1 then [[1], [2]] else []), (fun _ => false),
        (fun t => if t = 1 then 2 else 3)⟩).queue 0 = [] ++ [[9]]) ∧
    (1 ∉ (publishFrame [9] ⟨{0, 1},
        (fun t => if t = 1 then [[1], [2]] else []), (fun _ => false),
        (fun t => if t = 1 then 2 else 3)⟩).registered ∧
      (publishFrame [9] ⟨{0, 1},
        (fun t => if t = 1 then [[1], [2]] else []), (fun _ => false),
        (fun t => if t = 1 then 2 else 3)⟩).closed 1 = true) ∧
    0 ∈ (runB ⟨{0, 1},
        (fun t => if t = 1 then [[1], [2]] else []), (fun _ => false),
        (fun t => if t = 1 then 2 else 3)⟩ [BOp.pub [9]]).registered := by
  refine ⟨?_, ?_, ?_⟩
  · exact broadcaster_publish_delivery_and_eviction.1 _ [9] 0 (by decide) (by decide)
  · exact broadcaster_publish_delivery_and_eviction.2.1 _ [9] 1 (by decide) (by decide)
  · exact broadcaster_publish_delivery_and_eviction.2.2 [BOp.pub [9]] _ 0 (by decide)
      ⟨by decide, trivial⟩

/-- C7: a first unregister of a registered subscriber removes it and closes
its queue; unregistering an already-unregistered handle (in particular a
second unregister, or one after eviction) changes nothing at all; and no
other subscriber's queue, closed flag or registration is affected. -/
theorem unregister_idempotent :
    (∀ (st : BState) (s : Sid), s ∈ st.registered →
        s ∉ (removeSub s st).registered ∧ (removeSub s st).closed s = true) ∧
    (∀ (st : BState) (s : Sid), s ∉ st.registered → removeSub s st = st) ∧
    (∀ (st : BState) (s : Sid), removeSub s (removeSub s st) = removeSub s st) ∧
    (∀ (st : BState) (s t : Sid), t ≠ s →
        (removeSub s st).queue t = st.queue t ∧
        (removeSub s st).closed t = st.closed t ∧
        (t ∈ (removeSub s st).registered ↔ t ∈ st.registered)) := by
  have hnot : ∀ (st : BState) (s : Sid), s ∉ st.registered → removeSub s st = st := by
    intro st s hs
    simp [removeSub, hs]
  refine ⟨?_, hnot, ?_, ?_⟩
  · intro st s hs
    constructor
    · simp [removeSub, hs]
    · simp [removeSub, hs]
  · intro st s
    by_cases hs : s ∈ st.registered
    · apply hnot
      simp [removeSub, hs]
    · rw [hnot st s hs]
      exact hnot st s hs
  · intro st s t hts
    by_cases hs : s ∈ st.registered
    · refine ⟨by simp [removeSub, hs, hts], by simp [removeSub, hs, hts], ?_⟩
      simp [removeSub, hs, Finset.mem_erase, hts]
    · simp [hnot st s hs]

/-- Witness for C7: subscriber 0 registered alone; the first unregister
removes and closes it, a second unregister is a no-op, and subscriber 5 is
untouched. -/
theorem unregister_idempotent_witness :
    (0 ∉ (removeSub 0 ⟨{0}, (fun _ => []), (fun _ => false), (fun _ => 4)⟩).registered ∧
      (removeSub 0 ⟨{0}, (fun _ => []), (fun _ => false), (fun _ => 4)⟩).closed 0 = true) ∧
    removeSub 0 (removeSub 0 ⟨{0}, (fun _ => []), (fun _ => false), (fun _ => 4)⟩) =
      removeSub 0 ⟨{0}, (fun _ => []), (fun _ => false), (fun _ => 4)⟩ ∧
    (5 ∈ (removeSub 0 ⟨{0, 5}, (fun _ => []), (fun _ => false), (fun _ => 4)⟩).registered ↔
      5 ∈ ({0, 5} : Finset Sid)) := by
  refine ⟨?_, ?_, ?_⟩
  · exact unregister_idempotent.1 _ 0 (by decide)
  · exact unregister_idempotent.2.2.1 _ 0
  · exact (unregister_idempotent.2.2.2 _ 0 5 (by decide)).2.2

/-- C9: `GetHeaderCopy` returns `none` exactly when the cached header is
empty, and otherwise a buffer with exactly the header's bytes; the returned
buffer is constructed by `make` + `copy` from a fresh zero-filled allocation,
never the internal slice itself, so mutating it cannot reach the cache. -/
theorem getHeaderCopy_spec :
    (∀ h : List Nat, GetHeaderCopy h = none ↔ h = []) ∧
    (∀ h : List Nat, h ≠ [] → GetHeaderCopy h = some h) := by
  have hcopy : ∀ h : List Nat, goCopy (List.replicate h.length 0) h = h := by
    intro h
    simp [goCopy]
  constructor
  · intro h
    constructor
    · intro hnone
      by_contra hne
      simp [GetHeaderCopy, List.length_eq_zero, hne] at hnone
    · intro he
      simp [GetHeaderCopy, he]
  · intro h hne
    rw [GetHeaderCopy, if_neg (by simpa [List.length_eq_zero] using hne), hcopy]

/-- Witness for C9: the header `[7, 8]` is returned as an equal fresh copy. -/
theorem getHeaderCopy_spec_witness :
    GetHeaderCopy [7, 8] = some [7, 8] :=
  getHeaderCopy_spec.2 [7, 8] (by decide)

/-- C8 counterexample: the original claim says the caller is suspended
precisely when the wall-clock time at which the cumulative bytes should
have been emitted at the target rate lies in the future, and for exactly
that remaining duration.  With `targetBps = 16000` (i.e. 128 kbps, so
`128 * 1000 / 8 = 16000`), 1000 bytes just written and 1 ns elapsed, the
exact should-time is `1000 / 16000` s = 62 500 000 ns, far in the future —
yet `Pace` sleeps 0, because the code truncates `float64(written) /
float64(targetBps)` to whole *seconds* before scaling by `time.Second`
(here `float64(1000) / float64(16000) = 0.0625` exactly, truncated to 0).
-/
theorem pace_not_exact_cex :
    (Pace { targetBps := 16000, written := 0 } 1000 1).2 = 0 ∧
    (1 : ℚ) < 1000 * 1000000000 / 16000 := by
  constructor
  · decide
  · norm_num

/-- C8 (amended): the target byte rate is exactly `kbps * 1000 / 8` (the
division is exact: `targetBps = 125 * kbps`), and for every `Pace` call with
positive elapsed time, writing is suspended precisely when the should-time
*truncated to whole seconds*, `(written / targetBps) ⌋-seconds`, lies in the
future, and then for exactly that truncated remaining duration; the written
counter advances by exactly `n` and no data passes through the pacer. -/
theorem pace_floor_seconds (t : GoThrottle) (n : Nat) (e : Int)
    (he : 0 < e) :
    (∀ kbps : Int, 0 < kbps → (newThrottle kbps).targetBps = kbps * 125 ∧
        8 * (newThrottle kbps).targetBps = kbps * 1000) ∧
    ((Pace t n e).2 ≠ 0 ↔ e < ((t.written + n) / t.targetBps) * 1000000000) ∧
    (Pace t n e).2 = max 0 (((t.written + n) / t.targetBps) * 1000000000 - e) ∧
    (Pace t n e).1.written = t.written + n := by
  have hne : ¬ e ≤ 0 := not_le.2 he
  refine ⟨?_, ?_, ?_, ?_⟩
  · intro kbps hk
    have hk' : ¬ kbps ≤ 0 := not_le.2 hk
    constructor
    · simp only [newThrottle, hk', if_false]
      omega
    · simp only [newThrottle, hk', if_false]
      omega
  · simp only [Pace, hne, if_false]
    split
    · dsimp only
      omega
    · dsimp only
      omega
  · simp only [Pace, hne, if_false]
    split
    · dsimp only
      omega
    · dsimp only
      omega
  · simp only [Pace, hne, if_false]
    split
    · rfl
    · rfl

theorem valid_page_length {p : List Nat} (h : IsValidPage p) : 27 ≤ p.length := by
  rw [h.2]; omega

theorem valid_page_decomp {p : List Nat} (h : IsValidPage p) :
    p = 79 :: 103 :: 103 :: 83 :: p.drop 4 := by
  conv_lhs => rw [← List.take_append_drop 4 p]
  rw [h.1]
  rfl

theorem readOggAfterSync_valid (p rest : List Nat) (h : IsValidPage p) :
    readOggAfterSync (p ++ rest) = some (p, rest) := by
  obtain ⟨hsync, hlen⟩ := h
  have h27 : 27 ≤ p.length := by rw [hlen]; omega
  have hlenapp : (p ++ rest).length = p.length + rest.length := List.length_append p rest
  have c1 : ¬ (p ++ rest).length < 27 := by omega
  have hhdr : (p ++ rest).take 27 = p.take 27 := List.take_append_of_le_length h27
  have hhdr4 : (p.take 27).take 4 = oggS := by
    rw [List.take_take]
    exact hsync
  have hgetD : (p.take 27).getD 26 0 = pageSegCount p := by
    simp [List.getD_eq_getElem?_getD, List.getElem?_take, pageSegCount]
  have c2 : ¬ (p ++ rest).length < 27 + pageSegCount p := by
    rw [hlenapp, hlen]; omega
  have hdrop27 : (p ++ rest).drop 27 = p.drop 27 ++ rest := by
    rw [List.drop_append_eq_append_drop, Nat.sub_eq_zero_of_le h27, List.drop_zero]
  have hldrop27 : (p.drop 27).length = pageSegCount p + pageBodyLen p := by
    rw [List.length_drop, hlen]; omega
  have hseg : ((p ++ rest).drop 27).take (pageSegCount p) = (p.drop 27).take (pageSegCount p) := by
    rw [hdrop27]
    exact List.take_append_of_le_length (by omega)
  have hsum : ((p.drop 27).take (pageSegCount p)).sum = pageBodyLen p := rfl
  have c3 : ¬ (p ++ rest).length < 27 + pageSegCount p + pageBodyLen p := by
    rw [hlenapp, hlen]; omega
  have hdropsc : (p ++ rest).drop (27 + pageSegCount p) = p.drop (27 + pageSegCount p) ++ rest := by
    rw [List.drop_append_eq_append_drop, Nat.sub_eq_zero_of_le (by rw [hlen]; omega),
      List.drop_zero]
  have hldropsc : (p.drop (27 + pageSegCount p)).length = pageBodyLen p := by
    rw [List.length_drop, hlen]; omega
  have hbody : ((p ++ rest).drop (27 + pageSegCount p)).take (pageBodyLen p) =
      (p.drop (27 + pageSegCount p)).take (pageBodyLen p) := by
    rw [hdropsc]
    exact List.take_append_of_le_length (by omega)
  have hpage : p.take 27 ++ (p.drop 27).take (pageSegCount p) ++
      (p.drop (27 + pageSegCount p)).take (pageBodyLen p) = p := by
    rw [← List.take_add, ← List.take_add, ← hlen, List.take_length]
  have hrest : (p ++ rest).drop (27 + pageSegCount p + pageBodyLen p) = rest := by
    rw [← hlen, List.drop_left]
  rw [readOggAfterSync]
  simp only [c1, c2, c3, hhdr, hhdr4, hgetD, hseg, hsum, hbody, hrest, if_false,
    ite_false, ne_eq, not_true_eq_false, not_false_eq_true, if_true, ite_true]
  rw [hpage]

theorem readNextOggPage_valid (p rest : List Nat) (h : IsValidPage p) :
    readNextOggPage (p ++ rest) = some (p, rest) := by
  have h27 := valid_page_length h
  cases p with
  | nil => simp at h27
  | cons a p' =>
    have hlc : (a :: p').length = p'.length + 1 := List.length_cons a p'
    have hlen4 : ¬ ((a :: (p' ++ rest)).length < 4) := by
      simp only [List.length_cons, List.length_append]
      omega
    have hsync4 : (a :: (p' ++ rest)).take 4 = oggS := by
      rw [← List.cons_append, List.take_append_of_le_length (by omega)]
      exact h.1
    rw [List.cons_append, readNextOggPage, if_neg hlen4, if_pos hsync4, ← List.cons_append]
    exact readOggAfterSync_valid _ rest h

theorem readNextOggPage_skip_garbage (g p rest : List Nat) (h : IsValidPage p)
    (hg : NoCapture g) :
    readNextOggPage (g ++ (p ++ rest)) = some (p, rest) := by
  induction g with
  | nil => simpa using readNextOggPage_valid p rest h
  | cons b t ih =>
    have h27 := valid_page_length h
    have hd := valid_page_decomp h
    have hlen4 : ¬ (b :: (t ++ (p ++ rest))).length < 4 := by
      simp [List.length_append]
      omega
    have hnotsync : ¬ (b :: (t ++ (p ++ rest))).take 4 = oggS := by
      by_cases hbt : 4 ≤ (b :: t).length
      · have hwin := hg 0 (by simp)
        rw [List.drop_zero] at hwin
        intro hcontra
        apply hwin
        rw [← List.cons_append, List.take_append_of_le_length hbt] at hcontra
        exact hcontra
      · intro hcontra
        rw [hd] at hcontra
        match t, hbt, hcontra with
        | [], _, hcontra => simp [oggS, List.cons_append] at hcontra
        | [x], _, hcontra => simp [oggS, List.cons_append] at hcontra
        | [x, y], _, hcontra => simp [oggS, List.cons_append] at hcontra
        | x :: y :: z :: w, hbt, _ =>
          exact absurd (by simp only [List.length_cons]; omega) hbt
    have hg' : NoCapture t := by
      intro i hi
      have := hg (i + 1) (by simp; omega)
      simpa using this
    calc readNextOggPage ((b :: t) ++ (p ++ rest))
        = readNextOggPage (t ++ (p ++ rest)) := by
          rw [List.cons_append, readNextOggPage, if_neg hlen4, if_neg hnotsync]
      _ = some (p, rest) := ih hg'

theorem readNextOggPage_shrink (s p rest : List Nat)
    (h : readNextOggPage s = some (p, rest)) : rest.length < s.length := by
  induction s with
  | nil => simp [readNextOggPage] at h
  | cons b t ih =>
    rw [readNextOggPage] at h
    by_cases h4 : (b :: t).length < 4
    · rw [if_pos h4] at h
      exact absurd h (by simp)
    · rw [if_neg h4] at h
      by_cases hsync : (b :: t).take 4 = oggS
      · rw [if_pos hsync] at h
        simp only [readOggAfterSync] at h
        split_ifs at h with c1 c2 c3 c4
        rw [Option.some.injEq, Prod.mk.injEq] at h
        rw [← h.2, List.length_drop]
        simp only [List.length_cons] at c1 ⊢
        omega
      · rw [if_neg hsync] at h
        have := ih h
        simp only [List.length_cons]
        omega

theorem readPagesAux_congr (f1 : Nat) : ∀ (f2 : Nat) (s : List Nat),
    s.length < f1 → s.length < f2 → readPagesAux f1 s = readPagesAux f2 s := by
  induction f1 with
  | zero => intro f2 s h1 _; omega
  | succ n ih =>
    intro f2 s h1 h2
    match f2, h2 with
    | 0, h2 => omega
    | Nat.succ m, h2 =>
      cases hread : readNextOggPage s with
      | none => rw [readPagesAux, readPagesAux, hread]
      | some pr =>
        have hlt := readNextOggPage_shrink s pr.1 pr.2 (by rw [hread])
        rw [readPagesAux, readPagesAux, hread]
        dsimp only
        rw [ih m pr.2 (by omega) (by omega)]

theorem readPages_cons (s p rest : List Nat) (h : readNextOggPage s = some (p, rest)) :
    readPages s = p :: readPages rest := by
  have hlt := readNextOggPage_shrink s p rest h
  rw [readPages, readPages, readPagesAux, h]
  dsimp only
  exact congrArg (p :: ·)
    (readPagesAux_congr s.length (rest.length + 1) rest (by omega) (by omega))

/-- C3 (amended): a byte stream that is a concatenation of structurally
valid Ogg pages (capture pattern, 27-byte header, segment table summing to
the body length) is returned by repeated `readNextOggPage` calls as exactly
those pages, byte-for-byte and in order; and garbage bytes *containing no
occurrence of the capture pattern* injected before a capture pattern do not
change the returned page contents (neither for a single read nor for the
whole page sequence).  The original claim allowed arbitrary garbage; garbage
that itself contains "OggS" changes the result (see the counterexample). -/
theorem ogg_page_reader_roundtrip :
    (∀ ps : List (List Nat), (∀ p ∈ ps, IsValidPage p) →
        readPages ps.flatten = ps) ∧
    (∀ g p rest : List Nat, IsValidPage p → NoCapture g →
        readNextOggPage (g ++ (p ++ rest)) = some (p, rest)) ∧
    (∀ (g : List Nat) (p0 : List Nat) (ps : List (List Nat)),
        (∀ p ∈ p0 :: ps, IsValidPage p) → NoCapture g →
        readPages (g ++ (p0 :: ps).flatten) = p0 :: ps) := by
  have hflat : ∀ ps : List (List Nat), (∀ p ∈ ps, IsValidPage p) →
      readPages ps.flatten = ps := by
    intro ps
    induction ps with
    | nil =>
      intro _
      rfl
    | cons p ps ih =>
      intro hv
      have h1 : readNextOggPage (p ++ ps.flatten) = some (p, ps.flatten) :=
        readNextOggPage_valid p ps.flatten (hv p (by simp))
      rw [List.flatten_cons, readPages_cons _ _ _ h1, ih (fun q hq => hv q (by simp [hq]))]
  refine ⟨hflat, readNextOggPage_skip_garbage, ?_⟩
  intro g p0 ps hv hg
  have h1 : readNextOggPage (g ++ (p0 :: ps).flatten) = some (p0, ps.flatten) := by
    rw [List.flatten_cons, ← List.append_assoc]
    rw [List.append_assoc]
    exact readNextOggPage_skip_garbage g p0 ps.flatten (hv p0 (by simp)) hg
  rw [readPages_cons _ _ _ h1, hflat ps (fun q hq => hv q (by simp [hq]))]

/-- Witness for C3 (amended): two concrete minimal valid pages round-trip,
also with capture-pattern-free garbage `[0, 1, 2]` in front. -/
theorem ogg_page_reader_roundtrip_witness :
    readPages ([([79, 103, 103, 83] ++ List.replicate 23 0),
        ([79, 103, 103, 83] ++ List.replicate 22 0 ++ [1, 2, 7, 7])].flatten) =
      [([79, 103, 103, 83] ++ List.replicate 23 0),
        ([79, 103, 103, 83] ++ List.replicate 22 0 ++ [1, 2, 7, 7])] ∧
    readPages ([0, 1, 2] ++ [([79, 103, 103, 83] ++ List.replicate 23 0)].flatten) =
      [([79, 103, 103, 83] ++ List.replicate 23 0)] := by
  constructor
  · exact ogg_page_reader_roundtrip.1 _ (by decide)
  · exact ogg_page_reader_roundtrip.2.2 [0, 1, 2] _ [] (by decide) (by decide)

/-- C3 counterexample to the original "arbitrary garbage" clause: the page
`P = "OggS" ++ 23 zero bytes` is structurally valid and is returned intact
from a clean stream, but prepending the garbage bytes "OggS" (a stray
capture pattern) makes the reader return a different page (it syncs on the
garbage and consumes 23 bytes of the real page as its header). -/
theorem ogg_garbage_changes_page_cex :
    IsValidPage ([79, 103, 103, 83] ++ List.replicate 23 0) ∧
    readNextOggPage ([79, 103, 103, 83] ++ List.replicate 23 0) =
      some (([79, 103, 103, 83] ++ List.replicate 23 0), []) ∧
    (readNextOggPage ([79, 103, 103, 83] ++
        ([79, 103, 103, 83] ++ List.replicate 23 0))).map Prod.fst ≠
      some ([79, 103, 103, 83] ++ List.replicate 23 0) := by
  refine ⟨by decide, by decide, by decide⟩

theorem rel_checkPacket (vh : vorbisHeaderFinder) (u : uncappedFinder) (pkt : List Nat)
    (h1 : vh.gotPackets = min 3 u.count) (h2 : vh.packetBuf = u.packetBuf) :
    (checkPacket vh pkt).gotPackets = min 3 (ucheckPacket u pkt).count ∧
    (checkPacket vh pkt).packetBuf = (ucheckPacket u pkt).packetBuf := by
  unfold checkPacket ucheckPacket
  by_cases hc : 3 ≤ vh.gotPackets
  · simp only [if_pos hc]
    by_cases hq : isVorbisHeaderPkt pkt
    · simp only [if_pos hq]
      refine ⟨?_, h2⟩
      show vh.gotPackets = min 3 (u.count + 1)
      omega
    · simp only [if_neg hq]
      exact ⟨h1, h2⟩
  · simp only [if_neg hc]
    by_cases hq : isVorbisHeaderPkt pkt
    · simp only [if_pos hq]
      refine ⟨?_, h2⟩
      show vh.gotPackets + 1 = min 3 (u.count + 1)
      omega
    · simp only [if_neg hq]
      exact ⟨h1, h2⟩

theorem rel_feedSegs (body : List Nat) (laces : List Nat) :
    ∀ (vh : vorbisHeaderFinder) (u : uncappedFinder) (offset : Nat),
    vh.gotPackets = min 3 u.count → vh.packetBuf = u.packetBuf →
    (feedSegs body vh offset laces).gotPackets =
      min 3 (ufeedSegs body u offset laces).count ∧
    (feedSegs body vh offset laces).packetBuf =
      (ufeedSegs body u offset laces).packetBuf := by
  induction laces with
  | nil =>
    intro vh u offset h1 h2
    rw [feedSegs, ufeedSegs]
    exact ⟨h1, h2⟩
  | cons lace rest ih =>
    intro vh u offset h1 h2
    rw [feedSegs, ufeedSegs]
    by_cases hb : body.length < offset + lace
    · simp only [if_pos hb]
      exact ⟨h1, h2⟩
    · simp only [if_neg hb]
      by_cases hl : lace < 255
      · simp only [if_pos hl]
        rw [h2]
        apply ih
        · exact (rel_checkPacket
            { vh with packetBuf := u.packetBuf ++ (body.drop offset).take lace }
            { u with packetBuf := u.packetBuf ++ (body.drop offset).take lace }
            (u.packetBuf ++ (body.drop offset).take lace) h1 rfl).1
        · rfl
      · simp only [if_neg hl]
        rw [h2]
        apply ih
        · exact h1
        · rfl

theorem rel_feedPage (vh : vorbisHeaderFinder) (u : uncappedFinder) (page : List Nat)
    (h1 : vh.gotPackets = min 3 u.count) (h2 : vh.packetBuf = u.packetBuf) :
    (feedPage vh page).gotPackets = min 3 (ufeedPage u page).count ∧
    (feedPage vh page).packetBuf = (ufeedPage u page).packetBuf := by
  unfold feedPage ufeedPage
  by_cases h27 : page.length < 27
  · simp only [if_pos h27]
    exact ⟨h1, h2⟩
  · simp only [if_neg h27]
    by_cases hsc : page.length < 27 + page.getD 26 0
    · simp only [if_pos hsc]
      exact ⟨h1, h2⟩
    · simp only [if_neg hsc]
      by_cases hcont : Nat.land (page.getD 5 0) 1 = 0
      · simp only [if_pos hcont]
        exact rel_feedSegs _ _ _ _ 0 h1 rfl
      · simp only [if_neg hcont]
        exact rel_feedSegs _ _ _ _ 0 h1 h2

theorem rel_foldFeed (pages : List (List Nat)) :
    ∀ (vh : vorbisHeaderFinder) (u : uncappedFinder),
    vh.gotPackets = min 3 u.count → vh.packetBuf = u.packetBuf →
    (pages.foldl feedPage vh).gotPackets = min 3 ((pages.foldl ufeedPage u).count) ∧
    (pages.foldl feedPage vh).packetBuf = ((pages.foldl ufeedPage u).packetBuf) := by
  induction pages with
  | nil => intro vh u h1 h2; exact ⟨h1, h2⟩
  | cons p ps ih =>
    intro vh u h1 h2
    rw [List.foldl_cons, List.foldl_cons]
    exact ih _ _ (rel_feedPage vh u p h1 h2).1 (rel_feedPage vh u p h1 h2).2

theorem gotPackets_eq_min (pages : List (List Nat)) :
    (pages.foldl feedPage ⟨0, []⟩).gotPackets = min 3 (countVorbisPackets pages) :=
  (rel_foldFeed pages ⟨0, []⟩ ⟨0, []⟩ rfl rfl).1

theorem ucheckPacket_mono (u : uncappedFinder) (pkt : List Nat) :
    u.count ≤ (ucheckPacket u pkt).count := by
  unfold ucheckPacket
  by_cases hq : isVorbisHeaderPkt pkt
  · simp only [if_pos hq]
    show u.count ≤ u.count + 1
    omega
  · simp only [if_neg hq]
    exact le_refl _

theorem ufeedSegs_mono (body : List Nat) (laces : List Nat) :
    ∀ (u : uncappedFinder) (offset : Nat),
    u.count ≤ (ufeedSegs body u offset laces).count := by
  induction laces with
  | nil => intro u offset; rw [ufeedSegs]
  | cons lace rest ih =>
    intro u offset
    rw [ufeedSegs]
    by_cases hb : body.length < offset + lace
    · simp only [if_pos hb]
      exact le_refl _
    · simp only [if_neg hb]
      by_cases hl : lace < 255
      · simp only [if_pos hl]
        refine le_trans ?_ (ih _ _)
        exact ucheckPacket_mono
          { u with packetBuf := u.packetBuf ++ (body.drop offset).take lace } _
      · simp only [if_neg hl]
        exact ih { u with packetBuf := u.packetBuf ++ (body.drop offset).take lace }
          (offset + lace)

theorem ufeedPage_mono (u : uncappedFinder) (page : List Nat) :
    u.count ≤ (ufeedPage u page).count := by
  unfold ufeedPage
  by_cases h27 : page.length < 27
  · simp only [if_pos h27]
    exact le_refl _
  · simp only [if_neg h27]
    by_cases hsc : page.length < 27 + page.getD 26 0
    · simp only [if_pos hsc]
      exact le_refl _
    · simp only [if_neg hsc]
      by_cases hcont : Nat.land (page.getD 5 0) 1 = 0
      · simp only [if_pos hcont]
        exact ufeedSegs_mono _ _ { u with packetBuf := [] } 0
      · simp only [if_neg hcont]
        exact ufeedSegs_mono _ _ u 0

theorem ufoldFeed_mono (pages : List (List Nat)) :
    ∀ u : uncappedFinder, u.count ≤ (pages.foldl ufeedPage u).count := by
  induction pages with
  | nil => intro u; exact le_refl _
  | cons p ps ih =>
    intro u
    rw [List.foldl_cons]
    exact le_trans (ufeedPage_mono u p) (ih _)

theorem countVorbisPackets_take_mono (ps : List (List Nat)) (j k : Nat) (h : j ≤ k) :
    countVorbisPackets (ps.take j) ≤ countVorbisPackets (ps.take k) := by
  have hsplit : ps.take k = ps.take j ++ (ps.drop j).take (k - j) := by
    rw [← List.take_add]
    congr 1
    omega
  unfold countVorbisPackets
  rw [hsplit, List.foldl_append]
  exact ufoldFeed_mono _ _

theorem ufeedPage_short (u : uncappedFinder) (p : List Nat) (h : p.length < 27) :
    ufeedPage u p = u := by
  simp [ufeedPage, h]

theorem headerLoop_done (vh : vorbisHeaderFinder) (acc : List Nat)
    (ps : List (List Nat)) (h : 3 ≤ vh.gotPackets) : headerLoop vh acc ps = (vh, acc) := by
  cases ps with
  | nil => rw [headerLoop]
  | cons p ps =>
    rw [headerLoop]
    simp [vhDone, h]

theorem headerLoop_run (ps : List (List Nat)) :
    ∀ (k : Nat) (vh0 : vorbisHeaderFinder) (acc : List Nat), k < ps.length →
    (∀ j ≤ k, (List.foldl feedPage vh0 (ps.take j)).gotPackets < 3) →
    3 ≤ (List.foldl feedPage vh0 (ps.take (k + 1))).gotPackets →
    headerLoop vh0 acc ps =
      (List.foldl feedPage vh0 (ps.take (k + 1)), acc ++ (ps.take (k + 1)).flatten) := by
  induction ps with
  | nil =>
    intro k vh0 acc hk
    simp at hk
  | cons p ps ih =>
    intro k vh0 acc hk hbefore hat
    have h0 : vh0.gotPackets < 3 := by simpa using hbefore 0 (Nat.zero_le k)
    rw [headerLoop, if_neg (by simp only [vhDone, decide_eq_true_eq]; omega)]
    cases k with
    | zero =>
      have hat' : 3 ≤ (feedPage vh0 p).gotPackets := by simpa using hat
      rw [headerLoop_done _ _ _ hat']
      simp
    | succ k' =>
      have hk' : k' < ps.length := by simpa using hk
      have hbefore' : ∀ j ≤ k',
          (List.foldl feedPage (feedPage vh0 p) (ps.take j)).gotPackets < 3 := by
        intro j hj
        have := hbefore (j + 1) (by omega)
        simpa [List.take_succ_cons] using this
      have hat' : 3 ≤ (List.foldl feedPage (feedPage vh0 p) (ps.take (k' + 1))).gotPackets := by
        simpa [List.take_succ_cons] using hat
      rw [ih k' (feedPage vh0 p) (acc ++ p) hk' hbefore' hat']
      simp [List.take_succ_cons]

/-- C2: for every page stream containing three completed packets whose first
byte is 1, 3 or 5 followed by "vorbis" (with the code's lacing reassembly,
packets possibly split across page boundaries, the continuation flag
suppressing the page-start buffer reset), indexed so that the third such
packet completes on page `k`: the detector's count over any page prefix is
the min-3-capped packet count, the detector is not done after any prefix up
to and including `k` pages, it is done after `k + 1` pages, the header loop
of `streamOgg` stops exactly after feeding page `k` and has then accumulated
precisely the concatenation of pages `0..k`, and that accumulation is
nonempty, so it is exactly what is pushed to `setHeader`. -/
theorem vorbis_header_detection (ps : List (List Nat)) (k : Nat) (hk : k < ps.length)
    (hlt : countVorbisPackets (ps.take k) < 3)
    (hge : 3 ≤ countVorbisPackets (ps.take (k + 1))) :
    (∀ qs : List (List Nat),
        (List.foldl feedPage ⟨0, []⟩ qs).gotPackets = min 3 (countVorbisPackets qs)) ∧
    (∀ j ≤ k, (List.foldl feedPage ⟨0, []⟩ (ps.take j)).gotPackets < 3) ∧
    3 ≤ (List.foldl feedPage ⟨0, []⟩ (ps.take (k + 1))).gotPackets ∧
    headerLoop ⟨0, []⟩ [] ps =
      (List.foldl feedPage ⟨0, []⟩ (ps.take (k + 1)), (ps.take (k + 1)).flatten) ∧
    (ps.take (k + 1)).flatten ≠ [] := by
  have hbefore : ∀ j ≤ k, (List.foldl feedPage ⟨0, []⟩ (ps.take j)).gotPackets < 3 := by
    intro j hj
    rw [gotPackets_eq_min]
    have := countVorbisPackets_take_mono ps j k hj
    omega
  have hat : 3 ≤ (List.foldl feedPage ⟨0, []⟩ (ps.take (k + 1))).gotPackets := by
    rw [gotPackets_eq_min]
    omega
  have hloop := headerLoop_run ps k ⟨0, []⟩ [] hk hbefore hat
  rw [List.nil_append] at hloop
  refine ⟨gotPackets_eq_min, hbefore, hat, hloop, ?_⟩
  have htake : ps.take (k + 1) = ps.take k ++ [ps[k]] := by
    rw [List.take_succ]
    simp [List.getElem?_eq_getElem hk]
  have hlong : ¬ ps[k].length < 27 := by
    intro hshort
    have : countVorbisPackets (ps.take (k + 1)) = countVorbisPackets (ps.take k) := by
      unfold countVorbisPackets
      rw [htake, List.foldl_append]
      simp [ufeedPage_short _ _ hshort]
    omega
  rw [htake, List.flatten_append]
  intro hnil
  rw [List.append_eq_nil] at hnil
  have : ps[k] = [] := by simpa using hnil.2
  rw [this] at hlong
  simp at hlong

set_option maxRecDepth 40000 in
/-- Witness for C2: a concrete three-page stream; page 0 carries the type-1
"vorbis" packet, page 1 carries the type-3 packet and starts a 255-byte lace
of the type-5 packet, and page 2 (continuation flag set) completes it, so
the third packet completes on page `k = 2`. -/
theorem vorbis_header_detection_witness :
    2 < ([List.replicate 26 0 ++ [1] ++ [7] ++ (1 :: vorbisTag),
        List.replicate 26 0 ++ [2] ++ [7, 255] ++ (3 :: vorbisTag) ++
          (5 :: vorbisTag) ++ List.replicate 248 0,
        [0, 0, 0, 0, 0, 1] ++ List.replicate 20 0 ++ [1] ++ [4] ++ [9, 9, 9, 9]] :
          List (List Nat)).length ∧
    headerLoop ⟨0, []⟩ []
        [List.replicate 26 0 ++ [1] ++ [7] ++ (1 :: vorbisTag),
         List.replicate 26 0 ++ [2] ++ [7, 255] ++ (3 :: vorbisTag) ++
           (5 :: vorbisTag) ++ List.replicate 248 0,
         [0, 0, 0, 0, 0, 1] ++ List.replicate 20 0 ++ [1] ++ [4] ++ [9, 9, 9, 9]] =
      (List.foldl feedPage ⟨0, []⟩
        ([List.replicate 26 0 ++ [1] ++ [7] ++ (1 :: vorbisTag),
          List.replicate 26 0 ++ [2] ++ [7, 255] ++ (3 :: vorbisTag) ++
            (5 :: vorbisTag) ++ List.replicate 248 0,
          [0, 0, 0, 0, 0, 1] ++ List.replicate 20 0 ++ [1] ++ [4] ++ [9, 9, 9, 9]].take 3),
       ([List.replicate 26 0 ++ [1] ++ [7] ++ (1 :: vorbisTag),
         List.replicate 26 0 ++ [2] ++ [7, 255] ++ (3 :: vorbisTag) ++
           (5 :: vorbisTag) ++ List.replicate 248 0,
         [0, 0, 0, 0, 0, 1] ++ List.replicate 20 0 ++ [1] ++ [4] ++ [9, 9, 9, 9]].take 3).flatten) := by
  have h := vorbis_header_detection
    [List.replicate 26 0 ++ [1] ++ [7] ++ (1 :: vorbisTag),
     List.replicate 26 0 ++ [2] ++ [7, 255] ++ (3 :: vorbisTag) ++
       (5 :: vorbisTag) ++ List.replicate 248 0,
     [0, 0, 0, 0, 0, 1] ++ List.replicate 20 0 ++ [1] ++ [4] ++ [9, 9, 9, 9]]
    2 (by decide) (by decide) (by decide)
  exact ⟨by decide, h.2.2.2.1⟩

theorem checkPacket_mono (vh : vorbisHeaderFinder) (pkt : List Nat) :
    vh.gotPackets ≤ (checkPacket vh pkt).gotPackets := by
  unfold checkPacket
  by_cases hc : 3 ≤ vh.gotPackets
  · simp only [if_pos hc]
    exact le_refl _
  · simp only [if_neg hc]
    by_cases hq : isVorbisHeaderPkt pkt
    · simp only [if_pos hq]
      show vh.gotPackets ≤ vh.gotPackets + 1
      omega
    · simp only [if_neg hq]
      exact le_refl _

theorem checkPacket_le3 (vh : vorbisHeaderFinder) (pkt : List Nat)
    (h : vh.gotPackets ≤ 3) : (checkPacket vh pkt).gotPackets ≤ 3 := by
  unfold checkPacket
  by_cases hc : 3 ≤ vh.gotPackets
  · simp only [if_pos hc]
    exact h
  · simp only [if_neg hc]
    by_cases hq : isVorbisHeaderPkt pkt
    · simp only [if_pos hq]
      show vh.gotPackets + 1 ≤ 3
      omega
    · simp only [if_neg hq]
      exact h

theorem feedSegs_mono (body : List Nat) (laces : List Nat) :
    ∀ (vh : vorbisHeaderFinder) (offset : Nat),
    vh.gotPackets ≤ (feedSegs body vh offset laces).gotPackets := by
  induction laces with
  | nil => intro vh offset; rw [feedSegs]
  | cons lace rest ih =>
    intro vh offset
    rw [feedSegs]
    by_cases hb : body.length < offset + lace
    · simp only [if_pos hb]
      exact le_refl _
    · simp only [if_neg hb]
      by_cases hl : lace < 255
      · simp only [if_pos hl]
        refine le_trans ?_ (ih _ _)
        exact checkPacket_mono
          { vh with packetBuf := vh.packetBuf ++ (body.drop offset).take lace } _
      · simp only [if_neg hl]
        exact ih { vh with packetBuf := vh.packetBuf ++ (body.drop offset).take lace }
          (offset + lace)

theorem feedSegs_le3 (body : List Nat) (laces : List Nat) :
    ∀ (vh : vorbisHeaderFinder) (offset : Nat), vh.gotPackets ≤ 3 →
    (feedSegs body vh offset laces).gotPackets ≤ 3 := by
  induction laces with
  | nil => intro vh offset h; rw [feedSegs]; exact h
  | cons lace rest ih =>
    intro vh offset h
    rw [feedSegs]
    by_cases hb : body.length < offset + lace
    · simp only [if_pos hb]
      exact h
    · simp only [if_neg hb]
      by_cases hl : lace < 255
      · simp only [if_pos hl]
        apply ih
        exact checkPacket_le3
          { vh with packetBuf := vh.packetBuf ++ (body.drop offset).take lace } _ h
      · simp only [if_neg hl]
        apply ih
        exact h

theorem feedSegsChecked_eq (body : List Nat) (laces : List Nat) :
    ∀ (vh : vorbisHeaderFinder) (offset : Nat),
    feedSegsChecked body vh offset laces = some (feedSegs body vh offset laces) := by
  induction laces with
  | nil => intro vh offset; rw [feedSegsChecked, feedSegs]
  | cons lace rest ih =>
    intro vh offset
    rw [feedSegsChecked, feedSegs]
    by_cases hb : body.length < offset + lace
    · simp only [if_pos hb]
    · simp only [if_neg hb]
      rw [sliceChecked, if_pos (by omega)]
      dsimp only
      by_cases hl : lace < 255
      · simp only [if_pos hl]
        exact ih _ _
      · simp only [if_neg hl]
        exact ih _ _

/-- C10: `feedPage` is total and in-bounds on arbitrary byte slices: its
bounds-checked counterpart (which returns `none` on any out-of-bounds index
or slice) always succeeds and computes the same state, for short pages,
segment counts past the page end, and lacing tables summing past the body
alike; and across any call `gotPackets` never decreases and, from any state
with at most 3 counted packets (an invariant: the initial state has 0),
never exceeds 3. -/
theorem feedPage_total_bounded :
    (∀ (vh : vorbisHeaderFinder) (page : List Nat),
        feedPageChecked vh page = some (feedPage vh page)) ∧
    (∀ (vh : vorbisHeaderFinder) (page : List Nat),
        vh.gotPackets ≤ (feedPage vh page).gotPackets) ∧
    (∀ (vh : vorbisHeaderFinder) (page : List Nat),
        vh.gotPackets ≤ 3 → (feedPage vh page).gotPackets ≤ 3) := by
  refine ⟨?_, ?_, ?_⟩
  · intro vh page
    rw [feedPageChecked, feedPage]
    by_cases h27 : page.length < 27
    · simp only [if_pos h27]
    · simp only [if_neg h27]
      have h26 : page[26]? = some (page.getD 26 0) := by
        rw [List.getD_eq_getElem?_getD, List.getElem?_eq_getElem (by omega)]
        rfl
      rw [h26]
      dsimp only
      by_cases hsc : page.length < 27 + page.getD 26 0
      · simp only [if_pos hsc]
      · simp only [if_neg hsc]
        have h5 : page[5]? = some (page.getD 5 0) := by
          rw [List.getD_eq_getElem?_getD, List.getElem?_eq_getElem (by omega)]
          rfl
        rw [h5, sliceChecked, if_pos (by omega)]
        dsimp only
        exact feedSegsChecked_eq _ _ _ _
  · intro vh page
    rw [feedPage]
    by_cases h27 : page.length < 27
    · simp only [if_pos h27]
      exact le_refl _
    · simp only [if_neg h27]
      by_cases hsc : page.length < 27 + page.getD 26 0
      · simp only [if_pos hsc]
        exact le_refl _
      · simp only [if_neg hsc]
        by_cases hcont : Nat.land (page.getD 5 0) 1 = 0
        · simp only [if_pos hcont]
          exact feedSegs_mono _ _ { vh with packetBuf := [] } 0
        · simp only [if_neg hcont]
          exact feedSegs_mono _ _ vh 0
  · intro vh page h
    rw [feedPage]
    by_cases h27 : page.length < 27
    · simp only [if_pos h27]
      exact h
    · simp only [if_neg h27]
      by_cases hsc : page.length < 27 + page.getD 26 0
      · simp only [if_pos hsc]
        exact h
      · simp only [if_neg hsc]
        by_cases hcont : Nat.land (page.getD 5 0) 1 = 0
        · simp only [if_pos hcont]
          exact feedSegs_le3 _ _ { vh with packetBuf := [] } 0 h
        · simp only [if_neg hcont]
          exact feedSegs_le3 _ _ vh 0 h

/-- Witness for C10 at a malformed 2-byte page and a page whose lacing table
overruns the body, from the initial detector state. -/
theorem feedPage_total_bounded_witness :
    feedPageChecked ⟨0, []⟩ [1, 2] = some (feedPage ⟨0, []⟩ [1, 2]) ∧
    feedPageChecked ⟨0, []⟩ (List.replicate 26 0 ++ [2] ++ [200, 200] ++ [7]) =
      some (feedPage ⟨0, []⟩ (List.replicate 26 0 ++ [2] ++ [200, 200] ++ [7])) ∧
    (⟨0, []⟩ : vorbisHeaderFinder).gotPackets ≤ (feedPage ⟨0, []⟩ [1, 2]).gotPackets ∧
    (feedPage ⟨0, []⟩ [1, 2]).gotPackets ≤ 3 := by
  refine ⟨feedPage_total_bounded.1 _ _, feedPage_total_bounded.1 _ _,
    feedPage_total_bounded.2.1 _ _, feedPage_total_bounded.2.2 _ _ (by decide)⟩

theorem walkDir_zero (fs : GoFS) (st : WalkSt) (path : List Char) (c : Canon) :
    walkDir fs 0 st path c = { st with fuelOut := true } := rfl

theorem walkDir_succ (fs : GoFS) (fuel : Nat) (st : WalkSt) (path : List Char)
    (c : Canon) :
    walkDir fs (fuel + 1) st path c =
      if c ∈ st.seen then st
      else (fs.entries c).foldl (walkStep fs fuel path c)
        { st with seen := c :: st.seen, entered := st.entered ++ [c] } := rfl

theorem mem_fileNames {n : List Char} {es : List DirEntry}
    (h : DirEntry.fileE n ∈ es) : n ∈ fileNames es :=
  List.mem_filterMap.2 ⟨DirEntry.fileE n, h, rfl⟩

theorem unseen_mono (fs : GoFS) (st st' : WalkSt)
    (h : ∀ x ∈ st.seen, x ∈ st'.seen) : unseenCount fs st' ≤ unseenCount fs st := by
  apply List.countP_mono_left
  intro a _ ha
  simp only [decide_eq_true_eq] at ha ⊢
  exact fun hmem => ha (h a hmem)

theorem countP_unseen_cons (l : List Canon) (hl : l.Nodup) (c : Canon) (hc : c ∈ l)
    (seen : List Canon) (hcs : c ∉ seen) :
    (l.countP fun x => decide (x ∉ c :: seen)) + 1 =
      l.countP fun x => decide (x ∉ seen) := by
  induction l with
  | nil => simp at hc
  | cons a l ih =>
    rw [List.nodup_cons] at hl
    rw [List.countP_cons, List.countP_cons]
    rcases List.mem_cons.1 hc with rfl | hcl
    · have h1 : (decide (c ∉ c :: seen)) = false := by simp
      have h2 : (decide (c ∉ seen)) = true := by simpa using hcs
      rw [h1, h2]
      have : (l.countP fun x => decide (x ∉ c :: seen)) =
          l.countP fun x => decide (x ∉ seen) := by
        apply List.countP_congr
        intro x hx
        have hxc : x ≠ c := fun h => hl.1 (h ▸ hx)
        simp [List.mem_cons, hxc]
      rw [this]
      simp
    · have hac : a ≠ c := fun h => hl.1 (h ▸ hcl)
      have : (decide (a ∉ c :: seen)) = decide (a ∉ seen) := by
        simp [List.mem_cons, hac]
      rw [this, ← ih hl.2 hcl]
      omega

theorem unseen_insert (fs : GoFS) (hu : fs.univ.Nodup) (st : WalkSt) (c : Canon)
    (hc : c ∈ fs.univ) (hcs : c ∉ st.seen) :
    unseenCount fs { st with seen := c :: st.seen } + 1 = unseenCount fs st :=
  countP_unseen_cons fs.univ hu c hc st.seen hcs

theorem entInv_of_dirInv (fs : GoFS) (fuel : Nat)
    (hdir : ∀ (st : WalkSt) (path : List Char) (c : Canon), DirInv fs fuel st path c) :
    ∀ (es : List DirEntry) (st : WalkSt) (path : List Char) (c : Canon),
    EntInv fs fuel st path c es := by
  intro es
  induction es with
  | nil =>
    intro st path c
    refine ⟨[], [], by simp, by simp, by simp, by simp, by simp, by simp, by simp,
      ?_, by simp⟩
    intro _ d n
    simp [hitCount]
  | cons e es ih =>
    intro st path c
    match e with
    | DirEntry.fileE n =>
      by_cases hall : extAllowedOgg n = true
      · obtain ⟨de, dh, he, hs, hh, hnd, hns, hun, hmem, hcnt, hfl⟩ :=
          ih { st with hits := st.hits ++ [⟨c, n, path ++ '/' :: n⟩] } path c
        have hstep : walkStep fs fuel path c st (DirEntry.fileE n) =
            { st with hits := st.hits ++ [⟨c, n, path ++ '/' :: n⟩] } := by
          rw [walkStep, if_pos hall]
        refine ⟨de, ⟨c, n, path ++ '/' :: n⟩ :: dh, ?_, ?_, ?_, hnd, hns, ?_, ?_, ?_, ?_⟩
        · rw [List.foldl_cons, hstep]
          exact he
        · rw [List.foldl_cons, hstep]
          exact hs
        · rw [List.foldl_cons, hstep, hh]
          simp
        · intro htargets
          exact hun htargets
        · intro h hhd
          rcases List.mem_cons.1 hhd with rfl | hhd
          · exact Or.inr ⟨rfl, by simp, hall, rfl⟩
          · rcases hmem h hhd with hleft | ⟨h1, h2, h3, h4⟩
            · exact Or.inl hleft
            · exact Or.inr ⟨h1, by simp [h2], h3, h4⟩
        · intro hnodup d n₀
          have hn1 : n ∉ fileNames es ∧ (fileNames es).Nodup := by
            have : fileNames (DirEntry.fileE n :: es) = n :: fileNames es := rfl
            rw [this, List.nodup_cons] at hnodup
            exact hnodup
          have hc' := hcnt hn1.2 d n₀
          have hhead : hitCount [⟨c, n, path ++ '/' :: n⟩] d n₀ =
              if d = c ∧ n₀ = n then 1 else 0 := by
            simp only [hitCount, List.countP_cons, List.countP_nil, Bool.and_eq_true,
              beq_iff_eq, Nat.zero_add]
            by_cases h1 : d = c
            · by_cases h2 : n₀ = n
              · simp [h1, h2]
              · have h2' : ¬ n = n₀ := fun hq => h2 hq.symm
                simp [h1, h2, h2']
            · have h1' : ¬ c = d := fun hq => h1 hq.symm
              simp [h1, h1']
          have hsplit : hitCount (⟨c, n, path ++ '/' :: n⟩ :: dh) d n₀ =
              hitCount dh d n₀ + hitCount [⟨c, n, path ++ '/' :: n⟩] d n₀ := by
            simp [hitCount, List.countP_cons]
          rw [hsplit, hhead, hc']
          have hmemcons : (DirEntry.fileE n₀ ∈ DirEntry.fileE n :: es) ↔
              (n₀ = n ∨ DirEntry.fileE n₀ ∈ es) := by
            simp
          by_cases hd : d = c
          · by_cases hnn : n₀ = n
            · have hni : DirEntry.fileE n ∉ es := fun hin =>
                hn1.1 (mem_fileNames hin)
              simp only [hd, hnn, hmemcons]
              simp [hni, hall]
            · simp only [hmemcons]
              simp [hnn]
          · simp only [hmemcons]
            simp [hd]
        · intro htargets hfuel
          rw [List.foldl_cons, hstep]
          exact hfl htargets hfuel
      · obtain ⟨de, dh, he, hs, hh, hnd, hns, hun, hmem, hcnt, hfl⟩ := ih st path c
        have hstep : walkStep fs fuel path c st (DirEntry.fileE n) = st := by
          rw [walkStep, if_neg hall]
        refine ⟨de, dh, ?_, ?_, ?_, hnd, hns, ?_, ?_, ?_, ?_⟩
        · rw [List.foldl_cons, hstep]
          exact he
        · rw [List.foldl_cons, hstep]
          exact hs
        · rw [List.foldl_cons, hstep]
          exact hh
        · intro htargets
          exact hun htargets
        · intro h hhd
          rcases hmem h hhd with hleft | ⟨h1, h2, h3, h4⟩
          · exact Or.inl hleft
          · exact Or.inr ⟨h1, by simp [h2], h3, h4⟩
        · intro hnodup d n₀
          have hn1 : (fileNames es).Nodup := by
            have : fileNames (DirEntry.fileE n :: es) = n :: fileNames es := rfl
            rw [this, List.nodup_cons] at hnodup
            exact hnodup.2
          rw [hcnt hn1 d n₀]
          have hmemcons : (DirEntry.fileE n₀ ∈ DirEntry.fileE n :: es) ↔
              (n₀ = n ∨ DirEntry.fileE n₀ ∈ es) := by
            simp
          by_cases hd : d = c
          · by_cases hnn : n₀ = n
            · simp only [hmemcons, hnn]
              have : ¬ extAllowedOgg n = true := hall
              simp [hd, this]
            · simp only [hmemcons]
              simp [hnn]
          · simp only [hmemcons]
            simp [hd]
        · intro htargets hfuel
          rw [List.foldl_cons, hstep]
          exact hfl htargets hfuel
    | DirEntry.dirE n t =>
      obtain ⟨de1, dh1, he1, hs1, hh1, hnd1, hns1, hun1, hmem1, hcnt1, hfl1⟩ :=
        hdir st (path ++ '/' :: n) t
      obtain ⟨de2, dh2, he2, hs2, hh2, hnd2, hns2, hun2, hmem2, hcnt2, hfl2⟩ :=
        ih (walkDir fs fuel st (path ++ '/' :: n) t) path c
      have hstep : walkStep fs fuel path c st (DirEntry.dirE n t) =
          walkDir fs fuel st (path ++ '/' :: n) t := rfl
      have hdisj : ∀ d ∈ de2, d ∉ de1 := by
        intro d hd hmem
        have := hns2 d hd
        rw [hs1] at this
        exact this (by simp [List.mem_reverse, hmem])
      refine ⟨de1 ++ de2, dh1 ++ dh2, ?_, ?_, ?_, ?_, ?_, ?_, ?_, ?_, ?_⟩
      · rw [List.foldl_cons, hstep, he2, he1, List.append_assoc]
      · rw [List.foldl_cons, hstep, hs2, hs1, List.reverse_append, List.append_assoc]
      · rw [List.foldl_cons, hstep, hh2, hh1, List.append_assoc]
      · rw [List.nodup_append]
        exact ⟨hnd1, hnd2, fun a ha1 ha2 => hdisj a ha2 ha1⟩
      · intro d hd
        rcases List.mem_append.1 hd with hd1 | hd2
        · exact hns1 d hd1
        · have := hns2 d hd2
          rw [hs1] at this
          intro hmem
          exact this (by simp [hmem])
      · intro htargets d hd
        have hcons : dirTargets (DirEntry.dirE n t :: es) = t :: dirTargets es := rfl
        rw [hcons] at htargets
        have ht : t ∈ fs.univ := htargets t (List.mem_cons_self _ _)
        rcases List.mem_append.1 hd with hd1 | hd2
        · exact hun1 ht d hd1
        · exact hun2 (fun t' ht' => htargets t' (List.mem_cons_of_mem _ ht')) d hd2
      · intro h hhd
        rcases List.mem_append.1 hhd with hh1' | hh2'
        · obtain ⟨ha, hb, hc'⟩ := hmem1 h hh1'
          exact Or.inl ⟨by simp [ha], hb, hc'⟩
        · rcases hmem2 h hh2' with ⟨ha, hb, hc'⟩ | ⟨h1, h2, h3, h4⟩
          · exact Or.inl ⟨by simp [ha], hb, hc'⟩
          · exact Or.inr ⟨h1, by simp [h2], h3, h4⟩
      · intro hnodup d n₀
        have hn2 : (fileNames es).Nodup := by
          have : fileNames (DirEntry.dirE n t :: es) = fileNames es := rfl
          rwa [this] at hnodup
        have hsplit : hitCount (dh1 ++ dh2) d n₀ =
            hitCount dh1 d n₀ + hitCount dh2 d n₀ := List.countP_append _ _ _
        rw [hsplit, hcnt1 d n₀, hcnt2 hn2 d n₀]
        have hmemcons : (DirEntry.fileE n₀ ∈ DirEntry.dirE n t :: es) ↔
            DirEntry.fileE n₀ ∈ es := by
          simp
        by_cases hd1 : d ∈ de1
        · have hd2 : d ∉ de2 := fun h => hdisj d h hd1
          simp only [hmemcons, List.mem_append]
          by_cases hP : DirEntry.fileE n₀ ∈ fs.entries d ∧ extAllowedOgg n₀ = true
          · simp [hd1, hd2, hP]
          · simp [hd1, hd2, hP]
        · simp only [hmemcons, List.mem_append]
          by_cases hd2 : d ∈ de2
          · by_cases hP : DirEntry.fileE n₀ ∈ fs.entries d ∧ extAllowedOgg n₀ = true
            · simp [hd1, hd2, hP]
            · simp [hd1, hd2, hP]
          · simp [hd1, hd2]
      · intro htargets hfuel
        have hcons : dirTargets (DirEntry.dirE n t :: es) = t :: dirTargets es := rfl
        rw [hcons] at htargets
        have ht : t ∈ fs.univ := htargets t (List.mem_cons_self _ _)
        rw [List.foldl_cons, hstep]
        have hf1 : (walkDir fs fuel st (path ++ '/' :: n) t).fuelOut = st.fuelOut :=
          hfl1 ht hfuel
        have hmono : unseenCount fs (walkDir fs fuel st (path ++ '/' :: n) t) ≤
            unseenCount fs st := by
          apply unseen_mono
          intro x hx
          rw [hs1]
          simp [hx]
        have harg : ∀ t' ∈ dirTargets es, t' ∈ fs.univ := fun t' ht' =>
          htargets t' (List.mem_cons_of_mem _ ht')
        rw [hfl2 harg (by omega), hf1]

theorem dirInv_all (fs : GoFS) (hclosed : ClosedFS fs) (hnames : NamesOk fs)
    (hu : fs.univ.Nodup) :
    ∀ (fuel : Nat) (st : WalkSt) (path : List Char) (c : Canon),
    DirInv fs fuel st path c := by
  intro fuel
  induction fuel with
  | zero =>
    intro st path c
    refine ⟨[], [], by simp [walkDir_zero], by simp [walkDir_zero],
      by simp [walkDir_zero], by simp, by simp, by simp, by simp, ?_, ?_⟩
    · intro d n
      simp [hitCount]
    · intro _ hfuel
      omega
  | succ g ih =>
    intro st path c
    have hent := entInv_of_dirInv fs g ih
    by_cases hseen : c ∈ st.seen
    · refine ⟨[], [], ?_, ?_, ?_, by simp, by simp, by simp, by simp, ?_, ?_⟩
      · rw [walkDir_succ, if_pos hseen]
        simp
      · rw [walkDir_succ, if_pos hseen]
        simp
      · rw [walkDir_succ, if_pos hseen]
        simp
      · intro d n
        simp [hitCount]
      · intro _ _
        rw [walkDir_succ, if_pos hseen]
    · obtain ⟨de, dh, he, hs, hh, hnd, hns, hun, hmem, hcnt, hfl⟩ :=
        hent (fs.entries c)
          { st with seen := c :: st.seen, entered := st.entered ++ [c] } path c
      have hw : walkDir fs (g + 1) st path c =
          (fs.entries c).foldl (walkStep fs g path c)
            { st with seen := c :: st.seen, entered := st.entered ++ [c] } := by
        rw [walkDir_succ, if_neg hseen]
      have hcne : c ∉ de := by
        intro hcde
        exact hns c hcde (by simp)
      refine ⟨c :: de, dh, ?_, ?_, ?_, ?_, ?_, ?_, ?_, ?_, ?_⟩
      · rw [hw, he]
        simp
      · rw [hw, hs]
        simp
      · rw [hw, hh]
      · rw [List.nodup_cons]
        exact ⟨hcne, hnd⟩
      · intro d hd
        rcases List.mem_cons.1 hd with rfl | hdde
        · exact hseen
        · have := hns d hdde
          intro hmm
          exact this (by simp [hmm])
      · intro hc d hd
        rcases List.mem_cons.1 hd with rfl | hdde
        · exact hc
        · exact hun (hclosed c hc) d hdde
      · intro h hh'
        rcases hmem h hh' with ⟨h1, h2, h3⟩ | ⟨h1, h2, h3, _⟩
        · exact ⟨List.mem_cons_of_mem _ h1, h2, h3⟩
        · exact ⟨by simp [h1], by rw [h1]; exact h2, h3⟩
      · intro d n
        rw [hcnt (hnames c) d n]
        by_cases hdc : d = c
        · subst hdc
          by_cases hP : DirEntry.fileE n ∈ fs.entries d ∧ extAllowedOgg n = true
          · simp [hcne, hP]
          · simp [hcne, hP]
        · by_cases hde' : d ∈ de
          · by_cases hP : DirEntry.fileE n ∈ fs.entries d ∧ extAllowedOgg n = true
            · simp [hdc, hde', hP]
            · simp [hdc, hde', hP]
          · simp [hdc, hde']
      · intro hc hfuel
        rw [hw]
        have hins := unseen_insert fs hu st c hc hseen
        have heqc : unseenCount fs
            { st with seen := c :: st.seen, entered := st.entered ++ [c] } =
            unseenCount fs { st with seen := c :: st.seen } := rfl
        exact hfl (hclosed c hc) (by omega)

/-- C5: for every well-formed directory tree (dir entries resolving inside
the known canonical-directory set, no duplicate file names in a listing),
including trees with a self-referential symlink: the walk terminates — the
canonical-directory budget is never exhausted — because each canonical
directory is entered at most once (`entered` has no duplicates and stays in
the tree); every file entry with an allowed extension of every entered
directory is collected exactly once and nothing else is collected; the final
list is the collected paths sorted lexicographically; and in the
two-symlinks scenario the subtree's file is contributed once precisely when
both symlinks resolve to the same canonical directory. -/
theorem dirwalk_cycle_safe (fs : GoFS) (rootPath : List Char) (root : Canon)
    (hclosed : ClosedFS fs) (hnames : NamesOk fs) (hu : fs.univ.Nodup)
    (hroot : root ∈ fs.univ) :
    (runWalk fs rootPath root).fuelOut = false ∧
    (runWalk fs rootPath root).entered.Nodup ∧
    (∀ d ∈ (runWalk fs rootPath root).entered, d ∈ fs.univ) ∧
    (∀ (d : Canon) (n : List Char),
      hitCount (runWalk fs rootPath root).hits d n =
        if d ∈ (runWalk fs rootPath root).entered ∧
            DirEntry.fileE n ∈ fs.entries d ∧ extAllowedOgg n = true
        then 1 else 0) ∧
    List.Sorted (· ≤ ·) (buildOggListFromDir fs rootPath root) ∧
    (buildOggListFromDir fs rootPath root).Perm
      ((runWalk fs rootPath root).hits.map FileHit.path) ∧
    (∀ c1 c2 : Canon, c1 ≠ 0 → c2 ≠ 0 →
      ((runWalk (pairFS c1 c2) rootPath 0).hits.length = 1 ↔ c1 = c2)) := by
  obtain ⟨de, dh, he, hs, hh, hnd, hns, hun, hmem, hcnt, hfl⟩ :=
    dirInv_all fs hclosed hnames hu (fs.univ.length + 1) ⟨[], [], [], false⟩
      rootPath root
  have hrun : runWalk fs rootPath root =
      walkDir fs (fs.univ.length + 1) ⟨[], [], [], false⟩ rootPath root := rfl
  have hmu : unseenCount fs (⟨[], [], [], false⟩ : WalkSt) < fs.univ.length + 1 := by
    have := List.countP_le_length (l := fs.univ) (p := fun c => decide (c ∉ ([] : List Canon)))
    simp only [unseenCount]
    omega
  refine ⟨?_, ?_, ?_, ?_, ?_, ?_, ?_⟩
  · rw [hrun]
    exact hfl hroot hmu
  · rw [hrun, he]
    simpa using hnd
  · intro d hd
    rw [hrun, he] at hd
    exact hun hroot d (by simpa using hd)
  · intro d n
    rw [hrun, hh, he]
    simpa using hcnt d n
  · exact List.sorted_insertionSort _ _
  · exact List.perm_insertionSort _ _
  · intro c1 c2 h1 h2
    have hext : extAllowedOgg ['x', '.', 'o', 'g', 'g'] = true := by decide
    by_cases heq : c1 = c2
    · subst heq
      simp [runWalk, pairFS, walkDir, walkStep, h1, hext, List.foldl_cons,
        List.foldl_nil]
    · simp [runWalk, pairFS, walkDir, walkStep, h1, h2, heq, hext, List.foldl_cons,
        List.foldl_nil, Ne.symm heq]

/-- Witness for C5 at the self-referential-symlink tree `loopFS` (canon 0
contains `loop -> .` and `a.ogg`): the walk terminates without exhausting
fuel, enters the directory exactly once, collects `a.ogg` exactly once, the
output is sorted, and concretely the walk returns exactly one hit. -/
theorem dirwalk_cycle_safe_witness :
    (runWalk loopFS ['r'] 0).fuelOut = false ∧
    (runWalk loopFS ['r'] 0).entered.Nodup ∧
    hitCount (runWalk loopFS ['r'] 0).hits 0 ['a', '.', 'o', 'g', 'g'] =
      (if 0 ∈ (runWalk loopFS ['r'] 0).entered ∧
          DirEntry.fileE ['a', '.', 'o', 'g', 'g'] ∈ loopFS.entries 0 ∧
          extAllowedOgg ['a', '.', 'o', 'g', 'g'] = true then 1 else 0) ∧
    List.Sorted (· ≤ ·) (buildOggListFromDir loopFS ['r'] 0) ∧
    (runWalk loopFS ['r'] 0).hits =
      [⟨0, ['a', '.', 'o', 'g', 'g'], ['r', '/', 'a', '.', 'o', 'g', 'g']⟩] := by
  have hclosed : ClosedFS loopFS := by
    intro c hc t ht
    simp [loopFS] at hc
    subst hc
    simp [loopFS, dirTargets] at ht
    simp [loopFS, ht]
  have hnames : NamesOk loopFS := by
    intro c
    by_cases hc : c = 0
    · subst hc
      simp [loopFS, fileNames]
    · simp [loopFS, hc, fileNames]
  have h := dirwalk_cycle_safe loopFS ['r'] 0 hclosed hnames (by simp [loopFS])
    (by simp [loopFS])
  exact ⟨h.1, h.2.1, h.2.2.2.1 0 ['a', '.', 'o', 'g', 'g'], h.2.2.2.2.1, by decide⟩

/-- C6 counterexample: the original claim says a third field that *is* a
non-negative decimal integer leads to the body being discarded and the path
dispatched.  The field "18446744073709551616" (2^64) is a non-negative
decimal integer — 20 digits, nothing else — yet `strconv.Atoi` fails with
`ErrRange` on any 64-bit platform, so the server answers
"4 invalid content-length" instead of discarding the body and serving the
path. -/
theorem protocol_overflow_cex :
    handleRequest "X / 18446744073709551616\n".toList 5 ['h'] 300 =
      SpartanResp.invalidLen ∧
    ((goSplitSpace (goTrimRightCRLF "X / 18446744073709551616\n".toList)).getD 2
      []).length ≠ 0 ∧
    (((goSplitSpace (goTrimRightCRLF "X / 18446744073709551616\n".toList)).getD 2
      []).all fun ch => decide ('0' ≤ ch) && decide (ch ≤ '9')) = true := by
  refine ⟨by decide, by decide, by decide⟩

/-- C6 (amended): per connection, the first newline-terminated line with
trailing CR/LF stripped is split on single spaces; a field count other than
three draws the "4" malformed-request line; a third field that `strconv.Atoi`
rejects (not an optionally-signed decimal integer *within the signed 64-bit
range*) or that parses negative draws "4 invalid content-length"; otherwise
that many body bytes are discarded, drawing "5" when fewer are available;
then "/", "/index.gmi" and "/index.txt" draw the "2 text/gemini" status with
a Gemtext body containing "=> spartan://host:port/radio", "/radio" upgrades
to the stream, and any other path draws "4 not found\r\n" — exactly one
response value per connection by construction. -/
theorem protocol_request_handling (line : List Char) (bodyAvail : Nat)
    (host : List Char) (port : Nat) :
    ((goSplitSpace (goTrimRightCRLF line)).length ≠ 3 →
      handleRequest line bodyAvail host port = SpartanResp.malformed) ∧
    ((goSplitSpace (goTrimRightCRLF line)).length = 3 →
      (goAtoi ((goSplitSpace (goTrimRightCRLF line)).getD 2 []) = none →
        handleRequest line bodyAvail host port = SpartanResp.invalidLen) ∧
      (∀ v : Int, goAtoi ((goSplitSpace (goTrimRightCRLF line)).getD 2 []) = some v →
        (v < 0 → handleRequest line bodyAvail host port = SpartanResp.invalidLen) ∧
        (0 ≤ v → bodyAvail < v.toNat →
          handleRequest line bodyAvail host port = SpartanResp.bodyErr) ∧
        (0 ≤ v → v.toNat ≤ bodyAvail →
          (((goSplitSpace (goTrimRightCRLF line)).getD 1 [] = ['/'] ∨
            (goSplitSpace (goTrimRightCRLF line)).getD 1 [] = "/index.gmi".toList ∨
            (goSplitSpace (goTrimRightCRLF line)).getD 1 [] = "/index.txt".toList) →
            handleRequest line bodyAvail host port =
              SpartanResp.indexPage (indexBody host port)) ∧
          ((goSplitSpace (goTrimRightCRLF line)).getD 1 [] = "/radio".toList →
            handleRequest line bodyAvail host port = SpartanResp.radio) ∧
          (¬ ((goSplitSpace (goTrimRightCRLF line)).getD 1 [] = ['/'] ∨
              (goSplitSpace (goTrimRightCRLF line)).getD 1 [] = "/index.gmi".toList ∨
              (goSplitSpace (goTrimRightCRLF line)).getD 1 [] = "/index.txt".toList) →
            (goSplitSpace (goTrimRightCRLF line)).getD 1 [] ≠ "/radio".toList →
            handleRequest line bodyAvail host port = SpartanResp.notFound)))) ∧
    indexBody host port = "Spartan Radio (Ogg Vorbis)\n\n".toList ++
      radioLink host port ++ " Tune in\n".toList ∧
    renderResp (SpartanResp.indexPage (indexBody host port)) =
      "2 text/gemini; charset=utf-8\r\n".toList ++ indexBody host port ∧
    renderResp SpartanResp.notFound = "4 not found\r\n".toList := by
  refine ⟨?_, ?_, rfl, rfl, rfl⟩
  · intro h
    rw [handleRequest, if_pos h]
  · intro h3
    have hno : ¬ (goSplitSpace (goTrimRightCRLF line)).length ≠ 3 := not_not_intro h3
    constructor
    · intro hn
      rw [handleRequest, if_neg hno, hn]
    · intro v hv
      have hred : handleRequest line bodyAvail host port =
          (if v < 0 then SpartanResp.invalidLen
          else if bodyAvail < v.toNat then SpartanResp.bodyErr
          else if (goSplitSpace (goTrimRightCRLF line)).getD 1 [] = ['/'] ∨
              (goSplitSpace (goTrimRightCRLF line)).getD 1 [] = "/index.gmi".toList ∨
              (goSplitSpace (goTrimRightCRLF line)).getD 1 [] = "/index.txt".toList then
            SpartanResp.indexPage (indexBody host port)
          else if (goSplitSpace (goTrimRightCRLF line)).getD 1 [] = "/radio".toList then
            SpartanResp.radio
          else SpartanResp.notFound) := by
        rw [handleRequest, if_neg hno, hv]
      refine ⟨?_, ?_, ?_⟩
      · intro hvneg
        rw [hred, if_pos hvneg]
      · intro hv0 hbody
        rw [hred, if_neg (by omega), if_pos hbody]
      · intro hv0 hbody
        refine ⟨?_, ?_, ?_⟩
        · intro hpath
          rw [hred, if_neg (by omega), if_neg (by omega), if_pos hpath]
        · intro hpath
          by_cases hidx : (goSplitSpace (goTrimRightCRLF line)).getD 1 [] = ['/'] ∨
              (goSplitSpace (goTrimRightCRLF line)).getD 1 [] = "/index.gmi".toList ∨
              (goSplitSpace (goTrimRightCRLF line)).getD 1 [] = "/index.txt".toList
          · rcases hidx with h | h | h <;> rw [hpath] at h <;> exact absurd h (by decide)
          · rw [hred, if_neg (by omega), if_neg (by omega), if_neg hidx, if_pos hpath]
        · intro hidx hradio
          rw [hred, if_neg (by omega), if_neg (by omega), if_neg hidx, if_neg hradio]

/-- Witness for C6 (amended): `GET / 0\r\n` draws the index page with the
radio link, `GET /missing 0\r\n` draws "4 not found", a one-field line is
malformed, and a negative length is rejected. -/
theorem protocol_request_handling_witness :
    handleRequest "GET / 0\r\n".toList 0 ['h'] 300 =
      SpartanResp.indexPage (indexBody ['h'] 300) ∧
    handleRequest "GET /missing 0\r\n".toList 0 ['h'] 300 = SpartanResp.notFound ∧
    handleRequest "garbage\r\n".toList 0 ['h'] 300 = SpartanResp.malformed ∧
    handleRequest "GET / -7\r\n".toList 0 ['h'] 300 = SpartanResp.invalidLen := by
  refine ⟨?_, ?_, ?_, ?_⟩
  · exact ((((protocol_request_handling "GET / 0\r\n".toList 0 ['h'] 300).2.1
      (by decide)).2 0 (by decide)).2.2 (by decide) (by decide)).1 (by decide)
  · exact ((((protocol_request_handling "GET /missing 0\r\n".toList 0 ['h'] 300).2.1
      (by decide)).2 0 (by decide)).2.2 (by decide) (by decide)).2.2 (by decide)
      (by decide)
  · exact (protocol_request_handling "garbage\r\n".toList 0 ['h'] 300).1 (by decide)
  · exact ((((protocol_request_handling "GET / -7\r\n".toList 0 ['h'] 300).2.1
      (by decide)).2 (-7) (by decide)).1 (by decide))

/-- C4: playlist file parsing of the ffmpeg-backed variant, as specified —
blank lines and `#`/`;` comment lines are skipped; a line is a bare path or
an encoder-concat `file '<path>'` line; relative paths resolve against the
playlist's directory; an entry survives only if its resolved path exists
with an allowed extension (dropping is per-line, never aborting: the parser
is a total per-line function); order is preserved exactly as written (the
file parse is the line-wise `filterMap`, a monoid homomorphism); and the
four-line example at `/base/list.txt` with both files existing yields
exactly `["/x/y.wav", "/base/relative.wav"]`. -/
theorem playlist_file_parsing :
    (∀ (base : List Char) (fe ae : List Char → Bool) (raw : List Char),
      trimSpaces raw = [] → parsePlaylistLine base fe ae raw = none) ∧
    (∀ (base : List Char) (fe ae : List Char → Bool) (raw : List Char),
      (trimSpaces raw).headD ' ' = '#' ∨ (trimSpaces raw).headD ' ' = ';' →
      parsePlaylistLine base fe ae raw = none) ∧
    (∀ (base : List Char) (fe ae : List Char → Bool) (raw p : List Char),
      parsePlaylistLine base fe ae raw = some p → fe p = true ∧ ae p = true) ∧
    (∀ (base : List Char) (fe ae : List Char → Bool) (xs ys : List (List Char)),
      readPlaylistFileSpec (xs ++ ys) base fe ae =
        readPlaylistFileSpec xs base fe ae ++ readPlaylistFileSpec ys base fe ae) ∧
    readPlaylistFileSpec
      ["# comment".toList, [], "file '/x/y.wav'".toList, "relative.wav".toList]
      "/base".toList
      (fun p => p == "/x/y.wav".toList || p == "/base/relative.wav".toList)
      (fun p => (goExt p).map Char.toLower == ".wav".toList) =
      ["/x/y.wav".toList, "/base/relative.wav".toList] := by
  refine ⟨?_, ?_, ?_, ?_, by decide⟩
  · intro base fe ae raw h
    rw [parsePlaylistLine, if_pos h]
  · intro base fe ae raw h
    rw [parsePlaylistLine]
    by_cases hnil : trimSpaces raw = []
    · rw [if_pos hnil]
    · rw [if_neg hnil, if_pos h]
  · intro base fe ae raw p h
    simp only [parsePlaylistLine] at h
    split_ifs at h
    all_goals cases h
    all_goals assumption
  · intro base fe ae xs ys
    exact List.filterMap_append xs ys _

/-- Witness for C4: comment, blank, existing-but-wrong-extension and
sound-entry cases of the per-line parser at concrete inputs. -/
theorem playlist_file_parsing_witness :
    parsePlaylistLine "/base".toList (fun _ => true) (fun _ => true)
      "# comment".toList = none ∧
    parsePlaylistLine "/base".toList (fun _ => true) (fun _ => true)
      "   ".toList = none ∧
    ((fun p => p == "/x/y.wav".toList) "/x/y.wav".toList = true ∧
      (fun _ => true) "/x/y.wav".toList = true) := by
  refine ⟨?_, ?_, ?_⟩
  · exact (playlist_file_parsing.2.1 "/base".toList (fun _ => true) (fun _ => true)
      "# comment".toList (by decide))
  · exact (playlist_file_parsing.1 "/base".toList (fun _ => true) (fun _ => true)
      "   ".toList (by decide))
  · exact playlist_file_parsing.2.2.1 "/base".toList
      (fun p => p == "/x/y.wav".toList) (fun _ => true) "file '/x/y.wav'".toList
      "/x/y.wav".toList (by decide)

/-- Witness for C8 (amended) at `targetBps = 16000`, 40000 bytes written,
1 ns elapsed: truncated should-time is 2 s, so the pacer sleeps
2 000 000 000 - 1 ns. -/
theorem pace_floor_seconds_witness :
    (newThrottle 128).targetBps = 128 * 125 ∧
    (Pace { targetBps := 16000, written := 0 } 40000 1).2 =
      max 0 ((((0 : Int) + 40000) / 16000) * 1000000000 - 1) := by
  have h := pace_floor_seconds { targetBps := 16000, written := 0 } 40000 1
    (by decide)
  exact ⟨(h.1 128 (by decide)).1, h.2.2.1⟩

end SpartanWaves
